import Mathlib

/-!
Verification of the BN254 scalar-field implementation `Fr` (src/bn256/fr.rs).

The `Fr` type in the source is four little-endian 64-bit limbs holding a
Montgomery-form residue.  Here a limb vector is embedded as the natural
number it denotes (the "256-bit limb value"); limb-wise carry/borrow
propagation on the 4-limb vector computes exactly ordinary natural-number
arithmetic on these values, so the embedding works with the denoted values
and recovers the limb tuple by positional decomposition where a claim
speaks about limbs.

The arithmetic bodies (`field_arithmetic!` / `field_common!` macro
expansions, the `sbb`/`adc`/`mac` helpers, and the Tonelli-Shanks helper
the source delegates to) are declared and invoked in `fr.rs` but their
code is not part of the given sources; those definitions are modelled from
the spec, as flagged in their doc comments.  Constants (`MODULUS`, `INV`,
`R`, `R2`, `R3`, `ROOT_OF_UNITY`, `ZETA`, `T_MINUS1_OVER2`, `S`) are taken
verbatim from `fr.rs`.
-/

set_option maxRecDepth 40000

set_option maxHeartbeats 1600000

namespace BN256Fr

/-- The 64-bit word base of a limb. -/
def W : ℕ := 2 ^ 64

/-- Value of the source constant `MODULUS` (fr.rs lines 51-56), the BN254
scalar prime `r`, from its four little-endian limbs. -/
def MODULUS : ℕ :=
  0x43e1f593f0000001 + W * (0x2833e84879b97091 + W * (0xb85045b68181585d + W * 0x30644e72e131a029))

/-- Source constant `INV = -(r^{-1} mod 2^64) mod 2^64` (fr.rs line 74). -/
def INV : ℕ := 0xc2e1f593efffffff

/-- Value of source constant `R = 2^256 mod r` (fr.rs lines 78-83). -/
def R : ℕ :=
  0xac96341c4ffffffb + W * (0x36fc76959f60cd29 + W * (0x666ea36f7879462e + W * 0x0e0a77c19a07df2f))

/-- Value of source constant `R2 = R^2 mod r` (fr.rs lines 87-92). -/
def R2 : ℕ :=
  0x1bb8e645ae216da7 + W * (0x53fe3ab1e35c59e3 + W * (0x8c49833d53bb8085 + W * 0x0216d0b17f4e44a5))

/-- Value of source constant `R3 = R^3 mod r` (fr.rs lines 96-101). -/
def R3 : ℕ :=
  0x5e94d8e1b4bf0040 + W * (0x2a489cbe1cfbb6b8 + W * (0x893cc664a19fcfed + W * 0x0cf8594b7fcc657c))

/-- The multiplicative inverse of `2^256` modulo `MODULUS`; the factor that
Montgomery reduction divides out (`RINV * 2^256 % MODULUS = 1`, proved
below). -/
def RINV : ℕ := 9915499612839321149637521777990102151350674507940716049588462388200839649614

/-- Source constant `S` (fr.rs line 107): `r - 1 = t * 2^S` with `t` odd. -/
def S : ℕ := 28

/-- Value of the source constant `T_MINUS1_OVER2` (fr.rs lines 243-248),
`(t - 1) / 2` for the odd cofactor `t` of `r - 1`. -/
def T_MINUS1_OVER2 : ℕ :=
  0xcdcb848a1f0fac9f + W * (0x0c0ac2e9419f4243 + W * (0x098d014dc2822db4 + W * 0x0000000183227397))

/-- Fuel-bounded modular exponentiation by repeated squaring,
`powM f m a n = a ^ n % m` whenever `n < 2 ^ f` (proved below).  Used to
state concrete power facts in a kernel-evaluable form. -/
def powM : ℕ → ℕ → ℕ → ℕ → ℕ
  | 0, m, _, _ => 1 % m
  | f + 1, m, a, n =>
    if n = 0 then 1 % m
    else
      let h := powM f m (a * a % m) (n / 2)
      if n % 2 = 1 then h * a % m else h

/-- Product of a list of prime powers, used to state the factorisation of
`p - 1` in a Pratt/Lucas primality certificate. -/
def primePowProd (l : List (ℕ × ℕ)) : ℕ := l.foldr (fun qe acc => qe.1 ^ qe.2 * acc) 1

/-- Modelled from the spec: one limb-elimination step of Montgomery
reduction (the `field_arithmetic!` macro body is not among the given
sources).  Following §4.1, the step multiplies the low limb by `INV`
modulo `2^64` to get the factor `k`, adds `k * MODULUS` so the low limb
becomes zero, and shifts one limb right; on denoted values that is exactly
this computation. -/
def redStep (t : ℕ) : ℕ := (t + t % W * INV % W * MODULUS) / W

/-- Modelled from the spec: full Montgomery reduction of a 512-bit
intermediate value — four limb-elimination steps, then the single
conditional final subtraction restoring the `[0, MODULUS)` invariant
(spec §4.1; the macro body is not among the given sources). -/
def montgomery_reduce (t : ℕ) : ℕ :=
  if MODULUS ≤ redStep (redStep (redStep (redStep t))) then
    redStep (redStep (redStep (redStep t))) - MODULUS
  else redStep (redStep (redStep (redStep t)))

/-- The field-element type of fr.rs line 44: four little-endian 64-bit
limbs, embedded as the natural number they denote. -/
structure Fr where
  val : ℕ
deriving DecidableEq

/-- The limb tuple of a field element: the positional base-`2^64`
decomposition of its 256-bit value, little-endian (fr.rs `Fr(pub [u64; 4])`). -/
def Fr.limbs (a : Fr) : ℕ × ℕ × ℕ × ℕ :=
  (a.val % W, a.val / W % W, a.val / W ^ 2 % W, a.val / W ^ 3 % W)

/-- The zero element `Fr([0, 0, 0, 0])`. -/
def Fr.zero : Fr := ⟨0⟩

/-- The one element: the Montgomery form of 1, i.e. the constant `R`. -/
def Fr.one : Fr := ⟨R⟩

/-- Modelled from the spec: addition — limb-wise add with carries, then one
conditional subtraction of the modulus (spec §4.1; `field_common!` body not
among the given sources).  On denoted values: add, subtract `MODULUS` once
if the sum reaches it. -/
def Fr.add (a b : Fr) : Fr :=
  ⟨if MODULUS ≤ a.val + b.val then a.val + b.val - MODULUS else a.val + b.val⟩

/-- Modelled from the spec: subtraction — limb-wise subtract with borrows,
adding the modulus back when the subtraction underflows (spec §4.1). -/
def Fr.sub (a b : Fr) : Fr :=
  ⟨if a.val < b.val then a.val + MODULUS - b.val else a.val - b.val⟩

/-- Modelled from the spec: negation — `MODULUS - a`, with the result
masked to zero when `a` is zero so the invariant value stays below the
modulus (spec §4.1). -/
def Fr.neg (a : Fr) : Fr := ⟨if a.val = 0 then 0 else MODULUS - a.val⟩

/-- Modelled from the spec: doubling — same result as self-addition
(spec §4.1, §8 "double(a) == a + a"). -/
def Fr.double (a : Fr) : Fr := Fr.add a a

/-- Modelled from the spec: multiplication — the 512-bit schoolbook product
of the two 256-bit limb values followed by Montgomery reduction
(spec §4.1; `field_arithmetic!` body not among the given sources). -/
def Fr.mul (a b : Fr) : Fr := ⟨montgomery_reduce (a.val * b.val)⟩

/-- Modelled from the spec: squaring — the 512-bit product of the value
with itself followed by Montgomery reduction (spec §4.1). -/
def Fr.square (a : Fr) : Fr := ⟨montgomery_reduce (a.val * a.val)⟩

/-- Fuel-bounded square-and-multiply exponentiation on field elements,
computing `a ^ n` with field squarings and multiplications. -/
def Fr.powAux : ℕ → Fr → ℕ → Fr
  | 0, _, _ => Fr.one
  | f + 1, a, n =>
    if n = 0 then Fr.one
    else
      let h := Fr.powAux f (Fr.square a) (n / 2)
      if n % 2 = 1 then Fr.mul h a else h

/-- Field exponentiation; 336 squaring levels cover every exponent below
`2 ^ 336`, in particular all exponents below the modulus. -/
def Fr.pow (a : Fr) (n : ℕ) : Fr := Fr.powAux 336 a n

/-- Modelled from the spec: inversion by Fermat exponentiation with the
fixed exponent `MODULUS - 2`, with the success flag obtained by comparing
the input against encoded zero (spec §4.2; `field_common!` body not among
the given sources). -/
def Fr.invert (a : Fr) : Fr × Bool := (Fr.pow a (MODULUS - 2), decide (a.val ≠ 0))

/-- The canonical (non-Montgomery) integer value of a field element:
Montgomery reduction of the bare limb value, exactly the `(*self).into()`
conversion used by `to_repr` (fr.rs line 297). -/
def canonical (a : Fr) : ℕ := montgomery_reduce a.val

/-- The residue a field element represents, as an element of
`ZMod MODULUS`: its canonical value, i.e. the limb value times `R⁻¹`. -/
def toField (a : Fr) : ZMod MODULUS := (canonical a : ZMod MODULUS)

/-- The field element whose limb value is the Montgomery encoding of a
given residue (the value times `R`, reduced). -/
def ofField (x : ZMod MODULUS) : Fr := ⟨x.val * R % MODULUS⟩

/-- Modelled from the spec: `from_raw` builds the element representing the
given canonical 256-bit integer by a Montgomery multiplication with `R2`
(spec §4.4 baseline path; `field_common!` body not among the given
sources).  fr.rs documents e.g. `GENERATOR = Fr::from_raw([7,0,0,0])` as
"7 mod r". -/
def from_raw (n : ℕ) : Fr := Fr.mul ⟨n⟩ ⟨R2⟩

/-- Source constant `ROOT_OF_UNITY` (fr.rs lines 113-118): `from_raw` of
the documented canonical value `0x3ddb9f5166d18b7...c9c`, a `2^S`-th root
of unity. -/
def ROOT_OF_UNITY : Fr :=
  from_raw (0xd34f1ed960c37c9c + W * (0x3215cf6dd39329c8 + W * (0x98865ea93dd31f74 + W * 0x03ddb9f5166d18b7)))

/-- Source constant `ZETA` (fr.rs lines 146-151): `from_raw` of the
documented canonical value, a primitive cube root of unity. -/
def ZETA : Fr :=
  from_raw (0xb8ca0b2d36636f23 + W * (0xcc37a73fec2bc5e9 + W * (0x048b6e193fd84104 + W * 0x30644e72e131a029)))

/-- Least `k` with `1 ≤ k ≤ n` such that `b ^ (2 ^ k) = 1`, if any: the
order-halving search inside Tonelli-Shanks. -/
def leastPow (b : ZMod MODULUS) : ℕ → Option ℕ
  | 0 => none
  | n + 1 =>
    match leastPow b n with
    | some k => some k
    | none => if b ^ 2 ^ (n + 1) = 1 then some (n + 1) else none

/-- Modelled from the spec: the Tonelli-Shanks main loop (spec §4.3; the
helper the source calls, `ff::helpers::sqrt_tonelli_shanks`, is not among
the given sources).  State `(x, b, z, v)` with `x^2 = a*b`; each round
finds the least `k` with `b^(2^k) = 1`, multiplies `x` by `z^(2^(v-k-1))`,
updates `b` and `z`, and continues with `v = k`; at most `S` rounds run. -/
def tsLoop : ℕ → ZMod MODULUS → ZMod MODULUS → ZMod MODULUS → ℕ → ZMod MODULUS
  | 0, x, _, _, _ => x
  | fuel + 1, x, b, z, v =>
    if b = 1 then x
    else
      match leastPow b (v - 1) with
      | none => x
      | some k =>
        let w := z ^ 2 ^ (v - k - 1)
        tsLoop fuel (x * w) (b * (w * w)) (w * w) k

/-- Modelled from the spec: square root by Tonelli-Shanks specialised to
the fixed `S` / `T_MINUS1_OVER2` / `ROOT_OF_UNITY` constants (spec §4.3,
fr.rs lines 241-250), computed on the residues the elements represent;
the success flag reports whether the candidate root squares back to the
input. -/
def sqrtCandidate (a : Fr) : ZMod MODULUS :=
  tsLoop S (toField a * toField a ^ T_MINUS1_OVER2)
    (toField a * toField a ^ T_MINUS1_OVER2 * toField a ^ T_MINUS1_OVER2)
    (toField ROOT_OF_UNITY) S

/-- Success flag of `sqrt`: whether the candidate root squares back to the
input residue (the constant-time final equality check of the helper),
tested on the canonical values of the two residues. -/
def sqrtFlag (a : Fr) : Bool := (sqrtCandidate a * sqrtCandidate a).val == (toField a).val

/-- Result pair of `sqrt`: the candidate root mapped back to limb form, and
the success flag. -/
def Fr.sqrt (a : Fr) : Fr × Bool := (ofField (sqrtCandidate a), sqrtFlag a)

/-- Little-endian byte decomposition: `k` bytes of `n`. -/
def bytesOfNat : ℕ → ℕ → List ℕ
  | 0, _ => []
  | k + 1, n => n % 256 :: bytesOfNat k (n / 256)

/-- Little-endian byte recomposition. -/
def natOfBytes (bs : List ℕ) : ℕ := bs.foldr (fun b acc => b + 256 * acc) 0

/-- Canonical 32-byte little-endian encoding (fr.rs `to_repr`,
lines 296-305): convert out of Montgomery form, then serialise the four
limbs little-endian — i.e. the 32 little-endian bytes of the canonical
value. -/
def to_repr (a : Fr) : List ℕ := bytesOfNat 32 (canonical a)

/-- Decoding of a 32-byte little-endian representation (fr.rs `from_repr`,
lines 270-294): parse the limbs, flag success exactly when the candidate
integer is below the modulus (the `sbb` borrow chain computes that
comparison; `sbb` is not among the given sources and is modelled from
spec §4.4), and convert into Montgomery form by multiplying by `R2`. -/
def from_repr (bs : List ℕ) : Fr × Bool :=
  (Fr.mul ⟨natOfBytes bs⟩ ⟨R2⟩, decide (natOfBytes bs < MODULUS))

/-- Parity test (fr.rs `is_odd`, lines 307-309): the lowest bit of the
first byte of `to_repr`. -/
def Fr.is_odd (a : Fr) : Bool := decide ((to_repr a).getD 0 0 % 2 = 1)

/-- Modelled from the spec: wide reduction of a 512-bit integer — split
into two 256-bit halves, Montgomery-multiply the low half by `R2` and the
high half by `R3`, and add (spec §4.5; the `from_u512` macro body is not
among the given sources). -/
def from_u512 (n : ℕ) : Fr :=
  Fr.add (Fr.mul ⟨n % 2 ^ 256⟩ ⟨R2⟩) (Fr.mul ⟨n / 2 ^ 256⟩ ⟨R3⟩)

/-- Conversion of 64 little-endian bytes into a field element (fr.rs
`from_uniform_bytes`, lines 315-326): read eight little-endian 64-bit
words — i.e. the 512-bit little-endian integer — and reduce via
`from_u512`. -/
def from_uniform_bytes (bs : List ℕ) : Fr := from_u512 (natOfBytes bs)

/-- An external randomness source (`impl RngCore`): a stream of 64-bit
words and a read position. -/
structure Rng where
  stream : ℕ → ℕ
  pos : ℕ

/-- One `next_u64()` call: the word at the current position, advancing the
position. -/
def next_u64 (g : Rng) : ℕ × Rng := (g.stream g.pos, ⟨g.stream, g.pos + 1⟩)

/-- Random sampling (fr.rs `random`, lines 213-224): draw eight 64-bit
words from the source, first word lowest, and reduce the resulting
512-bit integer via `from_u512`. -/
def random (g : Rng) : Fr × Rng :=
  let p0 := next_u64 g
  let p1 := next_u64 p0.2
  let p2 := next_u64 p1.2
  let p3 := next_u64 p2.2
  let p4 := next_u64 p3.2
  let p5 := next_u64 p4.2
  let p6 := next_u64 p5.2
  let p7 := next_u64 p6.2
  (from_u512 (p0.1 + W * (p1.1 + W * (p2.1 + W * (p3.1 + W *
    (p4.1 + W * (p5.1 + W * (p6.1 + W * p7.1))))))), p7.2)

end BN256Fr

namespace BN256Fr

theorem powM_eq (f : ℕ) : ∀ m a n : ℕ, 0 < m → n < 2 ^ f → powM f m a n = a ^ n % m := by
  induction f with
  | zero =>
    intro m a n _ hn
    have : n = 0 := by omega
    subst this
    simp [powM]
  | succ f ih =>
    intro m a n hm hn
    by_cases h0 : n = 0
    · subst h0; simp [powM]
    · have hdiv : n / 2 < 2 ^ f := by
        have : 2 ^ (f + 1) = 2 ^ f * 2 := by ring
        omega
      have hrec := ih m (a * a % m) (n / 2) hm hdiv
      have hsq : (a * a % m) ^ (n / 2) % m = (a * a) ^ (n / 2) % m := by
        rw [Nat.pow_mod, Nat.mod_mod_of_dvd _ (dvd_refl m), ← Nat.pow_mod]
      have key : (a * a) ^ (n / 2) = a ^ (2 * (n / 2)) := by
        rw [two_mul, pow_add, ← mul_pow]
      rcases Nat.even_or_odd n with he | ho
      · have h2 : n % 2 = 0 := Nat.even_iff.mp he
        have hn2 : 2 * (n / 2) = n := by omega
        simp only [powM, h0, if_false, h2]
        rw [hrec, hsq, key, hn2]
        simp
      · have h2 : n % 2 = 1 := Nat.odd_iff.mp ho
        have hn2 : 2 * (n / 2) + 1 = n := by omega
        simp only [powM, h0, if_false, h2, if_true]
        rw [hrec, hsq, key]
        rw [Nat.mul_mod, Nat.mod_mod_of_dvd _ (dvd_refl m), ← Nat.mul_mod, ← pow_succ, hn2]

theorem zmod_pow_natCast (m a n : ℕ) (hm : 0 < m) (hn : n < 2 ^ 336) :
    ((a : ZMod m)) ^ n = ((powM 336 m a n : ℕ) : ZMod m) := by
  rw [powM_eq 336 m a n hm hn, ← Nat.cast_pow, ZMod.natCast_mod]

theorem zmod_pow_eq_one_iff (m a n : ℕ) (hm : 1 < m) (hn : n < 2 ^ 336) :
    ((a : ZMod m)) ^ n = 1 ↔ powM 336 m a n = 1 := by
  rw [zmod_pow_natCast m a n (by omega) hn]
  constructor
  · intro h
    have h1 : ((powM 336 m a n : ℕ) : ZMod m) = ((1 : ℕ) : ZMod m) := by simpa using h
    have h2 := (ZMod.natCast_eq_natCast_iff' _ _ _).mp h1
    have hlt : powM 336 m a n < m := by
      rw [powM_eq 336 m a n (by omega) hn]; exact Nat.mod_lt _ (by omega)
    rw [Nat.mod_eq_of_lt hlt, Nat.mod_eq_of_lt hm] at h2
    exact h2
  · intro h; rw [h]; simp

theorem mem_of_prime_dvd_prod {q : ℕ} (hq : Nat.Prime q) :
    ∀ l : List (ℕ × ℕ), (∀ qe ∈ l, Nat.Prime qe.1) → q ∣ primePowProd l →
      ∃ qe ∈ l, q = qe.1 := by
  intro l
  induction l with
  | nil =>
    intro _ hdvd
    simp [primePowProd] at hdvd
    exact absurd hdvd hq.ne_one
  | cons qe rest ih =>
    intro hpr hdvd
    simp only [primePowProd, List.foldr_cons] at hdvd
    rcases (Nat.Prime.dvd_mul hq).mp hdvd with h | h
    · have hq1 : Nat.Prime qe.1 := hpr qe (List.mem_cons_self _ _)
      have hdq := Nat.Prime.dvd_of_dvd_pow hq h
      exact ⟨qe, List.mem_cons_self _ _, (Nat.prime_dvd_prime_iff_eq hq hq1).mp hdq⟩
    · obtain ⟨qe2, hm2, he⟩ := ih (fun x hx => hpr x (List.mem_cons_of_mem _ hx)) h
      exact ⟨qe2, List.mem_cons_of_mem _ hm2, he⟩

theorem lucas_cert (p a : ℕ) (l : List (ℕ × ℕ))
    (hp : 2 ≤ p)
    (hfac : primePowProd l = p - 1)
    (hprimes : ∀ qe ∈ l, Nat.Prime qe.1)
    (hlt : p - 1 < 2 ^ 336)
    (hpow : powM 336 p a (p - 1) = 1)
    (hchecks : ∀ qe ∈ l, ¬powM 336 p a ((p - 1) / qe.1) = 1) :
    Nat.Prime p := by
  apply lucas_primality p ((a : ℕ) : ZMod p)
  · rw [zmod_pow_eq_one_iff p a (p - 1) (by omega) hlt]
    exact hpow
  · intro q hq hdvd
    rw [← hfac] at hdvd
    obtain ⟨qe, hmem, rfl⟩ := mem_of_prime_dvd_prod hq l hprimes hdvd
    rw [Ne, zmod_pow_eq_one_iff p a _ (by omega) (lt_of_le_of_lt (Nat.div_le_self _ _) hlt)]
    exact hchecks qe hmem

end BN256Fr

namespace BN256Fr

/-- Lucas primality certificate for 5501. -/
theorem prime_5501 : Nat.Prime 5501 :=
  lucas_cert 5501 2 [(2, 2), (5, 3), (11, 1)] (by decide) (by decide)
    (by
      intro qe hqe
      simp only [List.mem_cons, List.not_mem_nil, or_false] at hqe
      rcases hqe with rfl | rfl | rfl
      · norm_num
      · norm_num
      · norm_num)
    (by decide) (by decide) (by decide)

/-- Lucas primality certificate for 11003. -/
theorem prime_11003 : Nat.Prime 11003 :=
  lucas_cert 11003 2 [(2, 1), (5501, 1)] (by decide) (by decide)
    (by
      intro qe hqe
      simp only [List.mem_cons, List.not_mem_nil, or_false] at hqe
      rcases hqe with rfl | rfl
      · norm_num
      · exact prime_5501)
    (by decide) (by decide) (by decide)

/-- Lucas primality certificate for 3691. -/
theorem prime_3691 : Nat.Prime 3691 :=
  lucas_cert 3691 2 [(2, 1), (3, 2), (5, 1), (41, 1)] (by decide) (by decide)
    (by
      intro qe hqe
      simp only [List.mem_cons, List.not_mem_nil, or_false] at hqe
      rcases hqe with rfl | rfl | rfl | rfl
      · norm_num
      · norm_num
      · norm_num
      · norm_num)
    (by decide) (by decide) (by decide)

/-- Lucas primality certificate for 4999. -/
theorem prime_4999 : Nat.Prime 4999 :=
  lucas_cert 4999 3 [(2, 1), (3, 1), (7, 2), (17, 1)] (by decide) (by decide)
    (by
      intro qe hqe
      simp only [List.mem_cons, List.not_mem_nil, or_false] at hqe
      rcases hqe with rfl | rfl | rfl | rfl
      · norm_num
      · norm_num
      · norm_num
      · norm_num)
    (by decide) (by decide) (by decide)

/-- Lucas primality certificate for 237073. -/
theorem prime_237073 : Nat.Prime 237073 :=
  lucas_cert 237073 15 [(2, 4), (3, 1), (11, 1), (449, 1)] (by decide) (by decide)
    (by
      intro qe hqe
      simp only [List.mem_cons, List.not_mem_nil, or_false] at hqe
      rcases hqe with rfl | rfl | rfl | rfl
      · norm_num
      · norm_num
      · norm_num
      · norm_num)
    (by decide) (by decide) (by decide)

/-- Lucas primality certificate for 405928799. -/
theorem prime_405928799 : Nat.Prime 405928799 :=
  lucas_cert 405928799 22 [(2, 1), (11, 1), (3691, 1), (4999, 1)] (by decide) (by decide)
    (by
      intro qe hqe
      simp only [List.mem_cons, List.not_mem_nil, or_false] at hqe
      rcases hqe with rfl | rfl | rfl | rfl
      · norm_num
      · norm_num
      · exact prime_3691
      · exact prime_4999)
    (by decide) (by decide) (by decide)

/-- Lucas primality certificate for 93001. -/
theorem prime_93001 : Nat.Prime 93001 :=
  lucas_cert 93001 14 [(2, 3), (3, 1), (5, 3), (31, 1)] (by decide) (by decide)
    (by
      intro qe hqe
      simp only [List.mem_cons, List.not_mem_nil, or_false] at hqe
      rcases hqe with rfl | rfl | rfl | rfl
      · norm_num
      · norm_num
      · norm_num
      · norm_num)
    (by decide) (by decide) (by decide)

/-- Lucas primality certificate for 12048837557. -/
theorem prime_12048837557 : Nat.Prime 12048837557 :=
  lucas_cert 12048837557 2 [(2, 2), (7, 2), (661, 1), (93001, 1)] (by decide) (by decide)
    (by
      intro qe hqe
      simp only [List.mem_cons, List.not_mem_nil, or_false] at hqe
      rcases hqe with rfl | rfl | rfl | rfl
      · norm_num
      · norm_num
      · norm_num
      · exact prime_93001)
    (by decide) (by decide) (by decide)

/-- Lucas primality certificate for 5156902474397. -/
theorem prime_5156902474397 : Nat.Prime 5156902474397 :=
  lucas_cert 5156902474397 2 [(2, 2), (107, 1), (12048837557, 1)] (by decide) (by decide)
    (by
      intro qe hqe
      simp only [List.mem_cons, List.not_mem_nil, or_false] at hqe
      rcases hqe with rfl | rfl | rfl
      · norm_num
      · norm_num
      · exact prime_12048837557)
    (by decide) (by decide) (by decide)

/-- Lucas primality certificate for 1670836401704629. -/
theorem prime_1670836401704629 : Nat.Prime 1670836401704629 :=
  lucas_cert 1670836401704629 2 [(2, 2), (3, 4), (5156902474397, 1)] (by decide) (by decide)
    (by
      intro qe hqe
      simp only [List.mem_cons, List.not_mem_nil, or_false] at hqe
      rcases hqe with rfl | rfl | rfl
      · norm_num
      · norm_num
      · exact prime_5156902474397)
    (by decide) (by decide) (by decide)

/-- Lucas primality certificate for 20963. -/
theorem prime_20963 : Nat.Prime 20963 :=
  lucas_cert 20963 2 [(2, 1), (47, 1), (223, 1)] (by decide) (by decide)
    (by
      intro qe hqe
      simp only [List.mem_cons, List.not_mem_nil, or_false] at hqe
      rcases hqe with rfl | rfl | rfl
      · norm_num
      · norm_num
      · norm_num)
    (by decide) (by decide) (by decide)

/-- Lucas primality certificate for 41927. -/
theorem prime_41927 : Nat.Prime 41927 :=
  lucas_cert 41927 5 [(2, 1), (20963, 1)] (by decide) (by decide)
    (by
      intro qe hqe
      simp only [List.mem_cons, List.not_mem_nil, or_false] at hqe
      rcases hqe with rfl | rfl
      · norm_num
      · exact prime_20963)
    (by decide) (by decide) (by decide)

/-- Lucas primality certificate for 1593227. -/
theorem prime_1593227 : Nat.Prime 1593227 :=
  lucas_cert 1593227 2 [(2, 1), (19, 1), (41927, 1)] (by decide) (by decide)
    (by
      intro qe hqe
      simp only [List.mem_cons, List.not_mem_nil, or_false] at hqe
      rcases hqe with rfl | rfl | rfl
      · norm_num
      · norm_num
      · exact prime_41927)
    (by decide) (by decide) (by decide)

/-- Lucas primality certificate for 1637. -/
theorem prime_1637 : Nat.Prime 1637 :=
  lucas_cert 1637 2 [(2, 2), (409, 1)] (by decide) (by decide)
    (by
      intro qe hqe
      simp only [List.mem_cons, List.not_mem_nil, or_false] at hqe
      rcases hqe with rfl | rfl
      · norm_num
      · norm_num)
    (by decide) (by decide) (by decide)

/-- Lucas primality certificate for 639533339. -/
theorem prime_639533339 : Nat.Prime 639533339 :=
  lucas_cert 639533339 2 [(2, 1), (229, 1), (853, 1), (1637, 1)] (by decide) (by decide)
    (by
      intro qe hqe
      simp only [List.mem_cons, List.not_mem_nil, or_false] at hqe
      rcases hqe with rfl | rfl | rfl | rfl
      · norm_num
      · norm_num
      · norm_num
      · exact prime_1637)
    (by decide) (by decide) (by decide)

/-- Lucas primality certificate for 65865678001877903. -/
theorem prime_65865678001877903 : Nat.Prime 65865678001877903 :=
  lucas_cert 65865678001877903 5 [(2, 1), (83, 1), (379, 1), (1637, 1), (639533339, 1)] (by decide) (by decide)
    (by
      intro qe hqe
      simp only [List.mem_cons, List.not_mem_nil, or_false] at hqe
      rcases hqe with rfl | rfl | rfl | rfl | rfl
      · norm_num
      · norm_num
      · norm_num
      · exact prime_1637
      · exact prime_639533339)
    (by decide) (by decide) (by decide)

/-- Lucas primality certificate for 13818364434197438864469338081. -/
theorem prime_13818364434197438864469338081 : Nat.Prime 13818364434197438864469338081 :=
  lucas_cert 13818364434197438864469338081 3 [(2, 5), (5, 1), (823, 1), (1593227, 1), (65865678001877903, 1)] (by decide) (by decide)
    (by
      intro qe hqe
      simp only [List.mem_cons, List.not_mem_nil, or_false] at hqe
      rcases hqe with rfl | rfl | rfl | rfl | rfl
      · norm_num
      · norm_num
      · norm_num
      · exact prime_1593227
      · exact prime_65865678001877903)
    (by decide) (by decide) (by decide)

/-- Lucas primality certificate for 21888242871839275222246405745257275088548364400416034343698204186575808495617. -/
theorem MODULUS_prime : Nat.Prime MODULUS :=
  lucas_cert MODULUS 5 [(2, 28), (3, 2), (13, 1), (29, 1), (983, 1), (11003, 1), (237073, 1), (405928799, 1), (1670836401704629, 1), (13818364434197438864469338081, 1)] (by decide) (by decide)
    (by
      intro qe hqe
      simp only [List.mem_cons, List.not_mem_nil, or_false] at hqe
      rcases hqe with rfl | rfl | rfl | rfl | rfl | rfl | rfl | rfl | rfl | rfl
      · norm_num
      · norm_num
      · norm_num
      · norm_num
      · norm_num
      · exact prime_11003
      · exact prime_237073
      · exact prime_405928799
      · exact prime_1670836401704629
      · exact prime_13818364434197438864469338081)
    (by decide) (by decide) (by decide)

end BN256Fr

namespace BN256Fr

theorem W_pos : 0 < W := by decide

theorem MODULUS_pos : 0 < MODULUS := by decide

theorem MODULUS_lt_W4 : MODULUS < 2 ^ 256 := by decide

theorem INV_spec : INV * MODULUS % W = W - 1 := by decide

theorem R_spec : R = 2 ^ 256 % MODULUS := by decide

theorem RINV_spec : RINV * 2 ^ 256 % MODULUS = 1 := by decide

theorem redStep_exact (t : ℕ) : (t + t % W * INV % W * MODULUS) % W = 0 := by
  have e2 : t % W * INV % W * MODULUS ≡ t % W * (INV * MODULUS) [MOD W] := by
    calc t % W * INV % W * MODULUS
        ≡ t % W * INV * MODULUS [MOD W] := (Nat.mod_modEq _ W).mul_right _
      _ = t % W * (INV * MODULUS) := by ring
  have e4 : INV * MODULUS ≡ W - 1 [MOD W] := by
    show INV * MODULUS % W = (W - 1) % W
    decide
  have e5 : t + t % W * INV % W * MODULUS ≡ t % W + t % W * (W - 1) [MOD W] :=
    (Nat.mod_modEq t W).symm.add (e2.trans (e4.mul_left (t % W)))
  have e6 : t % W + t % W * (W - 1) = t % W * W := by
    have hW : W - 1 + 1 = W := by decide
    calc t % W + t % W * (W - 1) = t % W * (W - 1 + 1) := by ring
      _ = t % W * W := by rw [hW]
  have e7 : t + t % W * INV % W * MODULUS ≡ 0 [MOD W] := by
    rw [e6] at e5
    exact e5.trans (Nat.modEq_zero_iff_dvd.mpr (dvd_mul_left W (t % W)))
  have := e7
  unfold Nat.ModEq at this
  simpa using this

theorem redStep_mul (t : ℕ) : W * redStep t = t + t % W * INV % W * MODULUS := by
  unfold redStep
  exact Nat.mul_div_cancel' (Nat.dvd_of_mod_eq_zero (redStep_exact t))

theorem redStep_congr (t : ℕ) : W * redStep t ≡ t [MOD MODULUS] := by
  calc W * redStep t = t + t % W * INV % W * MODULUS := redStep_mul t
    _ ≡ t + 0 [MOD MODULUS] :=
      Nat.ModEq.add_left t (Nat.modEq_zero_iff_dvd.mpr (dvd_mul_left _ _))
    _ = t := by ring

theorem redStep_le (t : ℕ) : W * redStep t ≤ t + (W - 1) * MODULUS := by
  rw [redStep_mul t]
  have hk : t % W * INV % W ≤ W - 1 := by
    have := Nat.mod_lt (t % W * INV) W_pos
    omega
  exact Nat.add_le_add_left (Nat.mul_le_mul_right _ hk) t

theorem redStepIter_congr (n : ℕ) : ∀ t, W ^ n * redStep^[n] t ≡ t [MOD MODULUS] := by
  induction n with
  | zero => intro t; simp [Nat.ModEq.refl]
  | succ n ih =>
    intro t
    calc W ^ (n + 1) * redStep^[n + 1] t
        = W ^ n * (W * redStep (redStep^[n] t)) := by
          rw [Function.iterate_succ_apply']; ring
      _ ≡ W ^ n * redStep^[n] t [MOD MODULUS] := ((redStep_congr _).mul_left _)
      _ ≡ t [MOD MODULUS] := ih t

theorem redStepIter_le (n : ℕ) : ∀ t, W ^ n * redStep^[n] t ≤ t + (W ^ n - 1) * MODULUS := by
  induction n with
  | zero => intro t; simp
  | succ n ih =>
    intro t
    have hcoef : W ^ n - 1 + W ^ n * (W - 1) = W ^ (n + 1) - 1 := by
      have h1 : W ^ n * (W - 1) + W ^ n = W ^ (n + 1) := by
        have hW : W - 1 + 1 = W := by decide
        calc W ^ n * (W - 1) + W ^ n = W ^ n * (W - 1 + 1) := by ring
          _ = W ^ n * W := by rw [hW]
          _ = W ^ (n + 1) := (pow_succ W n).symm
      have h2 : 1 ≤ W ^ n := Nat.one_le_pow _ _ W_pos
      omega
    calc W ^ (n + 1) * redStep^[n + 1] t
        = W ^ n * (W * redStep (redStep^[n] t)) := by
          rw [Function.iterate_succ_apply']; ring
      _ ≤ W ^ n * (redStep^[n] t + (W - 1) * MODULUS) :=
          Nat.mul_le_mul_left _ (redStep_le _)
      _ = W ^ n * redStep^[n] t + W ^ n * (W - 1) * MODULUS := by ring
      _ ≤ t + (W ^ n - 1) * MODULUS + W ^ n * (W - 1) * MODULUS :=
          Nat.add_le_add_right (ih t) _
      _ = t + (W ^ n - 1 + W ^ n * (W - 1)) * MODULUS := by ring
      _ = t + (W ^ (n + 1) - 1) * MODULUS := by rw [hcoef]

theorem mont_u_iterate (t : ℕ) :
    redStep (redStep (redStep (redStep t))) = redStep^[4] t := rfl

theorem W4_eq : W ^ 4 = 2 ^ 256 := by decide

theorem mont_u_congr (t : ℕ) :
    2 ^ 256 * redStep (redStep (redStep (redStep t))) ≡ t [MOD MODULUS] := by
  rw [mont_u_iterate, ← W4_eq]
  exact redStepIter_congr 4 t

theorem mont_u_le (t : ℕ) :
    2 ^ 256 * redStep (redStep (redStep (redStep t))) ≤ t + (2 ^ 256 - 1) * MODULUS := by
  rw [mont_u_iterate, ← W4_eq]
  exact redStepIter_le 4 t

theorem mont_u_lt (t : ℕ) (ht : t < MODULUS * 2 ^ 256) :
    redStep (redStep (redStep (redStep t))) < 2 * MODULUS := by
  have h := mont_u_le t
  have hm : (2 ^ 256 - 1) * MODULUS ≤ 2 ^ 256 * MODULUS :=
    Nat.mul_le_mul_right _ (by omega)
  have h2 : 2 ^ 256 * redStep (redStep (redStep (redStep t))) < 2 ^ 256 * (2 * MODULUS) := by
    have hexp : 2 ^ 256 * (2 * MODULUS) = MODULUS * 2 ^ 256 + 2 ^ 256 * MODULUS := by ring
    omega
  exact Nat.lt_of_mul_lt_mul_left h2

theorem montgomery_reduce_lt (t : ℕ) (ht : t < MODULUS * 2 ^ 256) :
    montgomery_reduce t < MODULUS := by
  unfold montgomery_reduce
  have h1 := mont_u_lt t ht
  have h2 := MODULUS_pos
  split <;> omega

theorem montgomery_reduce_congr (t : ℕ) :
    2 ^ 256 * montgomery_reduce t ≡ t [MOD MODULUS] := by
  have base := mont_u_congr t
  unfold montgomery_reduce
  split
  · rename_i hle
    have hsplit : redStep (redStep (redStep (redStep t)))
        = redStep (redStep (redStep (redStep t))) - MODULUS + MODULUS := by omega
    have hz : (2 : ℕ) ^ 256 * MODULUS ≡ 0 [MOD MODULUS] :=
      Nat.modEq_zero_iff_dvd.mpr (dvd_mul_left _ _)
    calc 2 ^ 256 * (redStep (redStep (redStep (redStep t))) - MODULUS)
        ≡ 2 ^ 256 * (redStep (redStep (redStep (redStep t))) - MODULUS) + 2 ^ 256 * MODULUS
          [MOD MODULUS] := by
          have h0 := (Nat.ModEq.refl
            (2 ^ 256 * (redStep (redStep (redStep (redStep t))) - MODULUS))).add hz
          simpa using h0.symm
      _ = 2 ^ 256 * redStep (redStep (redStep (redStep t))) := by
          rw [← Nat.mul_add, ← hsplit]
      _ ≡ t [MOD MODULUS] := base
  · exact base

end BN256Fr

namespace BN256Fr

theorem montgomery_reduce_eq (t : ℕ) (ht : t < MODULUS * 2 ^ 256) :
    montgomery_reduce t = t * RINV % MODULUS := by
  have hlt := montgomery_reduce_lt t ht
  have hcong := montgomery_reduce_congr t
  have hR : RINV * 2 ^ 256 ≡ 1 [MOD MODULUS] := by
    show RINV * 2 ^ 256 % MODULUS = 1 % MODULUS
    decide
  have h1 : RINV * (2 ^ 256 * montgomery_reduce t) ≡ RINV * t [MOD MODULUS] :=
    hcong.mul_left RINV
  have h2 : montgomery_reduce t ≡ RINV * (2 ^ 256 * montgomery_reduce t) [MOD MODULUS] := by
    have h3 : RINV * 2 ^ 256 * montgomery_reduce t ≡ 1 * montgomery_reduce t [MOD MODULUS] :=
      hR.mul_right _
    calc montgomery_reduce t = 1 * montgomery_reduce t := (one_mul _).symm
      _ ≡ RINV * 2 ^ 256 * montgomery_reduce t [MOD MODULUS] := h3.symm
      _ = RINV * (2 ^ 256 * montgomery_reduce t) := by ring
  have h4 : montgomery_reduce t ≡ t * RINV [MOD MODULUS] := by
    calc montgomery_reduce t
        ≡ RINV * (2 ^ 256 * montgomery_reduce t) [MOD MODULUS] := h2
      _ ≡ RINV * t [MOD MODULUS] := h1
      _ = t * RINV := by ring
  have h5 : montgomery_reduce t % MODULUS = t * RINV % MODULUS := h4
  rw [← h5, Nat.mod_eq_of_lt hlt]

theorem canonical_eq (a : Fr) (ha : a.val < 2 ^ 256) :
    canonical a = a.val * RINV % MODULUS := by
  unfold canonical
  exact montgomery_reduce_eq a.val
    (lt_of_lt_of_le ha (Nat.le_mul_of_pos_left _ MODULUS_pos))

theorem canonical_lt (a : Fr) (ha : a.val < 2 ^ 256) : canonical a < MODULUS := by
  rw [canonical_eq a ha]
  exact Nat.mod_lt _ MODULUS_pos

theorem toField_eq (a : Fr) (ha : a.val < 2 ^ 256) :
    toField a = (a.val : ZMod MODULUS) * (RINV : ZMod MODULUS) := by
  unfold toField
  rw [canonical_eq a ha, ZMod.natCast_mod, Nat.cast_mul]

theorem cast_RINV_mul_R256 : ((RINV : ZMod MODULUS)) * ((2 ^ 256 : ℕ) : ZMod MODULUS) = 1 := by
  have h : (((RINV * 2 ^ 256) % MODULUS : ℕ) : ZMod MODULUS) = ((RINV * 2 ^ 256 : ℕ) : ZMod MODULUS) :=
    ZMod.natCast_mod _ _
  rw [RINV_spec] at h
  rw [← Nat.cast_mul, ← h]
  simp

theorem mul_lt_bound (a b : Fr) (ha : a.val < 2 ^ 256) (hb : b.val < MODULUS) :
    a.val * b.val < MODULUS * 2 ^ 256 := by
  calc a.val * b.val = b.val * a.val := Nat.mul_comm _ _
    _ < MODULUS * 2 ^ 256 := Nat.mul_lt_mul_of_lt_of_lt hb ha

theorem Fr.mul_val (a b : Fr) (ha : a.val < 2 ^ 256) (hb : b.val < MODULUS) :
    (Fr.mul a b).val = a.val * b.val * RINV % MODULUS :=
  montgomery_reduce_eq _ (mul_lt_bound a b ha hb)

theorem Fr.mul_lt (a b : Fr) (ha : a.val < 2 ^ 256) (hb : b.val < MODULUS) :
    (Fr.mul a b).val < MODULUS :=
  montgomery_reduce_lt _ (mul_lt_bound a b ha hb)

theorem MODULUS_lt_cast (a : Fr) (ha : a.val < MODULUS) : a.val < 2 ^ 256 :=
  lt_trans ha MODULUS_lt_W4

theorem toField_mul (a b : Fr) (ha : a.val < 2 ^ 256) (hb : b.val < MODULUS) :
    toField (Fr.mul a b) = toField a * toField b := by
  have h1 : (Fr.mul a b).val < 2 ^ 256 := MODULUS_lt_cast _ (Fr.mul_lt a b ha hb)
  rw [toField_eq _ h1, toField_eq a ha, toField_eq b (MODULUS_lt_cast b hb)]
  rw [Fr.mul_val a b ha hb, ZMod.natCast_mod, Nat.cast_mul, Nat.cast_mul]
  ring

theorem Fr.add_mod (a b : Fr) : (Fr.add a b).val ≡ a.val + b.val [MOD MODULUS] := by
  unfold Fr.add
  split
  · rename_i hle
    show a.val + b.val - MODULUS ≡ a.val + b.val [MOD MODULUS]
    have h : a.val + b.val - MODULUS + MODULUS = a.val + b.val := by omega
    calc a.val + b.val - MODULUS
        ≡ a.val + b.val - MODULUS + MODULUS [MOD MODULUS] := by
          have hz : (MODULUS : ℕ) ≡ 0 [MOD MODULUS] := Nat.modEq_zero_iff_dvd.mpr dvd_rfl
          simpa using ((Nat.ModEq.refl (a.val + b.val - MODULUS)).add hz).symm
      _ = a.val + b.val := h
  · exact Nat.ModEq.refl _

theorem Fr.add_val (a b : Fr) : (Fr.add a b).val =
    if MODULUS ≤ a.val + b.val then a.val + b.val - MODULUS else a.val + b.val := rfl

theorem Fr.add_lt (a b : Fr) (ha : a.val < MODULUS) (hb : b.val < MODULUS) :
    (Fr.add a b).val < MODULUS := by
  rw [Fr.add_val]
  split <;> omega

theorem toField_add (a b : Fr) (ha : a.val < MODULUS) (hb : b.val < MODULUS) :
    toField (Fr.add a b) = toField a + toField b := by
  have hsum : (Fr.add a b).val < MODULUS := Fr.add_lt a b ha hb
  have hcast : (((Fr.add a b).val : ℕ) : ZMod MODULUS) = ((a.val + b.val : ℕ) : ZMod MODULUS) :=
    (ZMod.natCast_eq_natCast_iff _ _ _).mpr (Fr.add_mod a b)
  rw [toField_eq _ (MODULUS_lt_cast _ hsum), toField_eq a (MODULUS_lt_cast a ha),
    toField_eq b (MODULUS_lt_cast b hb), hcast]
  push_cast
  ring

theorem toField_one : toField Fr.one = 1 := by
  have h : canonical Fr.one = 1 := by decide
  unfold toField
  rw [h]
  simp

theorem toField_zero : toField Fr.zero = 0 := by
  have h : canonical Fr.zero = 0 := by decide
  unfold toField
  rw [h]
  simp

theorem val_eq_of_toField_eq (a b : Fr) (ha : a.val < MODULUS) (hb : b.val < MODULUS)
    (h : toField a = toField b) : a = b := by
  rw [toField_eq a (MODULUS_lt_cast a ha), toField_eq b (MODULUS_lt_cast b hb)] at h
  have h2 : (a.val : ZMod MODULUS) * (RINV : ZMod MODULUS) * ((2 ^ 256 : ℕ) : ZMod MODULUS)
      = (b.val : ZMod MODULUS) * (RINV : ZMod MODULUS) * ((2 ^ 256 : ℕ) : ZMod MODULUS) := by
    rw [h]
  rw [mul_assoc, mul_assoc, cast_RINV_mul_R256, mul_one, mul_one] at h2
  have h3 : a.val % MODULUS = b.val % MODULUS := (ZMod.natCast_eq_natCast_iff' _ _ _).mp h2
  rw [Nat.mod_eq_of_lt ha, Nat.mod_eq_of_lt hb] at h3
  cases a; cases b; simp_all

end BN256Fr

namespace BN256Fr

theorem Fr.square_eq (a : Fr) : Fr.square a = Fr.mul a a := rfl

theorem Fr.one_lt : Fr.one.val < MODULUS := by decide

theorem Fr.powAux_spec (f : ℕ) : ∀ (a : Fr) (n : ℕ), a.val < MODULUS →
    (Fr.powAux f a n).val < MODULUS ∧
      (n < 2 ^ f → toField (Fr.powAux f a n) = toField a ^ n) := by
  induction f with
  | zero =>
    intro a n _
    refine ⟨Fr.one_lt, fun hn => ?_⟩
    have h0 : n = 0 := by omega
    subst h0
    simpa [Fr.powAux] using toField_one
  | succ f ih =>
    intro a n ha
    by_cases h0 : n = 0
    · subst h0
      refine ⟨by simpa [Fr.powAux] using Fr.one_lt, fun _ => ?_⟩
      simpa [Fr.powAux] using toField_one
    · have hsq_lt : (Fr.square a).val < MODULUS := by
        rw [Fr.square_eq]
        exact Fr.mul_lt a a (MODULUS_lt_cast a ha) ha
      have hsq_toField : toField (Fr.square a) = toField a ^ 2 := by
        rw [Fr.square_eq, toField_mul a a (MODULUS_lt_cast a ha) ha, sq]
      obtain ⟨hlt, hval⟩ := ih (Fr.square a) (n / 2) hsq_lt
      by_cases hodd : n % 2 = 1
      · constructor
        · simp only [Fr.powAux, h0, if_false, hodd, if_true]
          exact Fr.mul_lt _ a (MODULUS_lt_cast _ hlt) ha
        · intro hn
          have hdiv : n / 2 < 2 ^ f := by
            have : 2 ^ (f + 1) = 2 ^ f * 2 := by ring
            omega
          simp only [Fr.powAux, h0, if_false, hodd, if_true]
          rw [toField_mul _ a (MODULUS_lt_cast _ hlt) ha, hval hdiv, hsq_toField,
            ← pow_mul, ← pow_succ]
          congr 1
          omega
      · constructor
        · simp only [Fr.powAux, h0, if_false, hodd]
          exact hlt
        · intro hn
          have hdiv : n / 2 < 2 ^ f := by
            have : 2 ^ (f + 1) = 2 ^ f * 2 := by ring
            omega
          simp only [Fr.powAux, h0, if_false, hodd]
          rw [hval hdiv, hsq_toField, ← pow_mul]
          congr 1
          omega

theorem Fr.pow_lt (a : Fr) (n : ℕ) (ha : a.val < MODULUS) : (Fr.pow a n).val < MODULUS :=
  (Fr.powAux_spec 336 a n ha).1

theorem toField_pow (a : Fr) (n : ℕ) (ha : a.val < MODULUS) (hn : n < 2 ^ 336) :
    toField (Fr.pow a n) = toField a ^ n :=
  (Fr.powAux_spec 336 a n ha).2 hn

/-- C1: for fully reduced inputs, `mul` returns a fully reduced result whose
256-bit limb value is `(a * b * R⁻¹) mod r` (with `R = 2^256 mod r` and
`RINV` its inverse, as the last two conjuncts pin down), and `square`
agrees with `mul` on equal arguments. -/
theorem claim_C1 (a b : Fr) (ha : a.val < MODULUS) (hb : b.val < MODULUS) :
    (Fr.mul a b).val = a.val * b.val * RINV % MODULUS ∧
    (Fr.mul a b).val < MODULUS ∧
    Fr.square a = Fr.mul a a ∧
    RINV * R % MODULUS = 1 ∧
    R = 2 ^ 256 % MODULUS :=
  ⟨Fr.mul_val a b (MODULUS_lt_cast a ha) hb,
   Fr.mul_lt a b (MODULUS_lt_cast a ha) hb,
   rfl,
   by decide,
   R_spec⟩

/-- Witness for C1 at the concrete reduced inputs with limb values 1 and 2. -/
theorem claim_C1_witness :
    (Fr.mk 1).val < MODULUS ∧ (Fr.mk 2).val < MODULUS ∧
    ((Fr.mul (Fr.mk 1) (Fr.mk 2)).val
        = (Fr.mk 1).val * (Fr.mk 2).val * RINV % MODULUS ∧
      Fr.square (Fr.mk 1) = Fr.mul (Fr.mk 1) (Fr.mk 1)) :=
  ⟨by decide, by decide,
   (claim_C1 (Fr.mk 1) (Fr.mk 2) (by decide) (by decide)).1,
   (claim_C1 (Fr.mk 1) (Fr.mk 2) (by decide) (by decide)).2.2.1⟩

end BN256Fr

namespace BN256Fr

theorem toField_eq_zero_iff (a : Fr) (ha : a.val < MODULUS) :
    toField a = 0 ↔ a.val = 0 := by
  rw [toField_eq a (MODULUS_lt_cast a ha)]
  constructor
  · intro h
    have h2 : (a.val : ZMod MODULUS) * (RINV : ZMod MODULUS) * ((2 ^ 256 : ℕ) : ZMod MODULUS)
        = 0 := by rw [h, zero_mul]
    rw [mul_assoc, cast_RINV_mul_R256, mul_one] at h2
    have h3 : (a.val : ZMod MODULUS) = ((0 : ℕ) : ZMod MODULUS) := by simpa using h2
    have h4 := (ZMod.natCast_eq_natCast_iff' _ _ _).mp h3
    rw [Nat.mod_eq_of_lt ha] at h4
    simpa using h4
  · intro h
    rw [h]
    simp

theorem MODULUS_sub_two_lt : MODULUS - 2 < 2 ^ 336 := by decide

/-- C2: `invert` succeeds exactly on nonzero inputs, its result is fully
reduced, a nonzero input times its inverse is the field one, and
`invert(0)` reports failure. -/
theorem claim_C2 (a : Fr) (ha : a.val < MODULUS) :
    ((Fr.invert a).2 = true ↔ a.val ≠ 0) ∧
    (Fr.invert a).1.val < MODULUS ∧
    (a.val ≠ 0 → Fr.mul a (Fr.invert a).1 = Fr.one) ∧
    (Fr.invert Fr.zero).2 = false := by
  haveI : Fact (Nat.Prime MODULUS) := ⟨MODULUS_prime⟩
  refine ⟨by simp [Fr.invert], Fr.pow_lt a _ ha, fun hz => ?_, by decide⟩
  have hA : toField a ≠ 0 := fun h => hz ((toField_eq_zero_iff a ha).mp h)
  have hinv_lt : (Fr.invert a).1.val < MODULUS := Fr.pow_lt a _ ha
  apply val_eq_of_toField_eq _ _ (Fr.mul_lt a _ (MODULUS_lt_cast a ha) hinv_lt) Fr.one_lt
  rw [toField_mul a _ (MODULUS_lt_cast a ha) hinv_lt, toField_one]
  show toField a * toField (Fr.pow a (MODULUS - 2)) = 1
  rw [toField_pow a _ ha MODULUS_sub_two_lt]
  have hsucc : MODULUS - 2 + 1 = MODULUS - 1 := by
    have : 2 ≤ MODULUS := by decide
    omega
  calc toField a * toField a ^ (MODULUS - 2)
      = toField a ^ (MODULUS - 2 + 1) := (pow_succ' _ _).symm
    _ = toField a ^ (MODULUS - 1) := by rw [hsucc]
    _ = 1 := ZMod.pow_card_sub_one_eq_one hA

/-- Witness for C2 at the concrete input with limb value 1. -/
theorem claim_C2_witness :
    (Fr.mk 1).val < MODULUS ∧ (Fr.mk 1).val ≠ 0 ∧
    Fr.mul (Fr.mk 1) (Fr.invert (Fr.mk 1)).1 = Fr.one :=
  ⟨by decide, by decide, (claim_C2 (Fr.mk 1) (by decide)).2.2.1 (by decide)⟩

/-- C8: `ROOT_OF_UNITY` has order `2^S` exactly (its `2^S` power is one,
its `2^(S-1)` power is not), and `ZETA` is a nontrivial cube root of one,
under the field exponentiation built from `mul`/`square`. -/
theorem claim_C8 :
    Fr.pow ROOT_OF_UNITY (2 ^ S) = Fr.one ∧
    Fr.pow ROOT_OF_UNITY (2 ^ (S - 1)) ≠ Fr.one ∧
    Fr.pow ZETA 3 = Fr.one ∧
    ZETA ≠ Fr.one := by
  refine ⟨by decide, by decide, by decide, by decide⟩

end BN256Fr

namespace BN256Fr

theorem mod_base_pow_succ (b k n : ℕ) (hb : 0 < b) :
    n % b ^ (k + 1) = n % b + b * (n / b % b ^ k) := by
  have h1 := Nat.div_add_mod n b
  have h2 := Nat.div_add_mod (n / b) (b ^ k)
  have hr1 : n % b < b := Nat.mod_lt _ hb
  have hr2 : n / b % b ^ k < b ^ k := Nat.mod_lt _ (pow_pos hb k)
  have hpow : b * b ^ k = b ^ (k + 1) := by rw [pow_succ]; ring
  have hx : n % b + b * (n / b % b ^ k) < b ^ (k + 1) := by
    have hmul : b * (n / b % b ^ k + 1) ≤ b * b ^ k :=
      Nat.mul_le_mul_left _ (by omega)
    have hexp : b * (n / b % b ^ k + 1) = b * (n / b % b ^ k) + b := by ring
    omega
  have hdecomp : n = n % b + b * (n / b % b ^ k) + b ^ (k + 1) * (n / b / b ^ k) := by
    calc n = b * (n / b) + n % b := (Nat.div_add_mod n b).symm
      _ = b * (b ^ k * (n / b / b ^ k) + n / b % b ^ k) + n % b := by rw [h2]
      _ = n % b + b * (n / b % b ^ k) + b * b ^ k * (n / b / b ^ k) := by ring
      _ = n % b + b * (n / b % b ^ k) + b ^ (k + 1) * (n / b / b ^ k) := by rw [hpow]
  calc n % b ^ (k + 1)
      = (n % b + b * (n / b % b ^ k) + b ^ (k + 1) * (n / b / b ^ k)) % b ^ (k + 1) := by
        rw [← hdecomp]
    _ = (n % b + b * (n / b % b ^ k)) % b ^ (k + 1) := Nat.add_mul_mod_self_left _ _ _
    _ = n % b + b * (n / b % b ^ k) := Nat.mod_eq_of_lt hx

theorem natOfBytes_bytesOfNat (k : ℕ) : ∀ n : ℕ, natOfBytes (bytesOfNat k n) = n % 256 ^ k := by
  induction k with
  | zero => intro n; simp [bytesOfNat, natOfBytes, Nat.mod_one]
  | succ k ih =>
    intro n
    show n % 256 + 256 * natOfBytes (bytesOfNat k (n / 256)) = n % 256 ^ (k + 1)
    rw [ih (n / 256), mod_base_pow_succ 256 k n (by omega)]

theorem bytesOfNat_length (k : ℕ) : ∀ n : ℕ, (bytesOfNat k n).length = k := by
  induction k with
  | zero => intro n; rfl
  | succ k ih => intro n; simp [bytesOfNat, ih]

theorem bytesOfNat_bytes_lt (k : ℕ) : ∀ n : ℕ, ∀ x ∈ bytesOfNat k n, x < 256 := by
  induction k with
  | zero => intro n x hx; simp [bytesOfNat] at hx
  | succ k ih =>
    intro n x hx
    simp only [bytesOfNat, List.mem_cons] at hx
    rcases hx with rfl | hx
    · exact Nat.mod_lt _ (by omega)
    · exact ih (n / 256) x hx

theorem natOfBytes_lt : ∀ bs : List ℕ, (∀ x ∈ bs, x < 256) →
    natOfBytes bs < 256 ^ bs.length := by
  intro bs
  induction bs with
  | nil => intro _; simp [natOfBytes]
  | cons b rest ih =>
    intro hb
    have hbl : b < 256 := hb b (List.mem_cons_self _ _)
    have hr : natOfBytes rest < 256 ^ rest.length :=
      ih fun x hx => hb x (List.mem_cons_of_mem _ hx)
    show b + 256 * natOfBytes rest < 256 ^ (rest.length + 1)
    have hmul : 256 * (natOfBytes rest + 1) ≤ 256 * 256 ^ rest.length :=
      Nat.mul_le_mul_left _ (by omega)
    have hpow : 256 * 256 ^ rest.length = 256 ^ (rest.length + 1) := by rw [pow_succ]; ring
    have hexp : 256 * (natOfBytes rest + 1) = 256 * natOfBytes rest + 256 := by ring
    omega

theorem pow256_32 : 256 ^ 32 = 2 ^ 256 := by decide

theorem natOfBytes32_lt (bs : List ℕ) (hlen : bs.length = 32) (hb : ∀ x ∈ bs, x < 256) :
    natOfBytes bs < 2 ^ 256 := by
  have := natOfBytes_lt bs hb
  rw [hlen, pow256_32] at this
  exact this

theorem R2_lt : R2 < MODULUS := by decide

theorem from_repr_val (bs : List ℕ) (h : natOfBytes bs < 2 ^ 256) :
    (from_repr bs).1.val = natOfBytes bs * R % MODULUS := by
  show (Fr.mul ⟨natOfBytes bs⟩ ⟨R2⟩).val = natOfBytes bs * R % MODULUS
  rw [Fr.mul_val ⟨natOfBytes bs⟩ ⟨R2⟩ h R2_lt]
  have hRR : R2 * RINV ≡ R [MOD MODULUS] := by
    show R2 * RINV % MODULUS = R % MODULUS
    decide
  have hc : natOfBytes bs * R2 * RINV ≡ natOfBytes bs * R [MOD MODULUS] := by
    calc natOfBytes bs * R2 * RINV = natOfBytes bs * (R2 * RINV) := by ring
      _ ≡ natOfBytes bs * R [MOD MODULUS] := hRR.mul_left _
  exact hc

theorem from_repr_lt (bs : List ℕ) (h : natOfBytes bs < 2 ^ 256) :
    (from_repr bs).1.val < MODULUS :=
  Fr.mul_lt ⟨natOfBytes bs⟩ ⟨R2⟩ h R2_lt

/-- C4: `from_repr` interpreting 32 little-endian bytes as an integer `c`
succeeds iff `c < MODULUS`, and on success returns the Montgomery encoding
of `c` (limb value `c * R mod r`, canonical value `c`). -/
theorem claim_C4 (bs : List ℕ) (hlen : bs.length = 32) (hbytes : ∀ x ∈ bs, x < 256) :
    ((from_repr bs).2 = true ↔ natOfBytes bs < MODULUS) ∧
    (natOfBytes bs < MODULUS →
      (from_repr bs).1.val = natOfBytes bs * R % MODULUS ∧
      canonical (from_repr bs).1 = natOfBytes bs) := by
  have h256 := natOfBytes32_lt bs hlen hbytes
  refine ⟨by simp [from_repr], fun hc => ⟨from_repr_val bs h256, ?_⟩⟩
  have hval := from_repr_val bs h256
  have hlt := from_repr_lt bs h256
  rw [canonical_eq _ (MODULUS_lt_cast _ hlt), hval]
  have hR1 : R * RINV ≡ 1 [MOD MODULUS] := by
    show R * RINV % MODULUS = 1 % MODULUS
    decide
  have hchain : natOfBytes bs * R % MODULUS * RINV ≡ natOfBytes bs [MOD MODULUS] := by
    calc natOfBytes bs * R % MODULUS * RINV
        ≡ natOfBytes bs * R * RINV [MOD MODULUS] := (Nat.mod_modEq _ _).mul_right _
      _ = natOfBytes bs * (R * RINV) := by ring
      _ ≡ natOfBytes bs * 1 [MOD MODULUS] := hR1.mul_left _
      _ = natOfBytes bs := by ring
  have h2 : natOfBytes bs * R % MODULUS * RINV % MODULUS = natOfBytes bs % MODULUS := hchain
  rw [Nat.mod_eq_of_lt hc] at h2
  exact h2

/-- Witness for C4 at the 32-byte encoding of the integer 1. -/
theorem claim_C4_witness :
    (bytesOfNat 32 1).length = 32 ∧ (∀ x ∈ bytesOfNat 32 1, x < 256) ∧
    ((from_repr (bytesOfNat 32 1)).2 = true ↔ natOfBytes (bytesOfNat 32 1) < MODULUS) :=
  ⟨by decide, by decide, (claim_C4 (bytesOfNat 32 1) (by decide) (by decide)).1⟩

/-- C5: decoding the canonical encoding of a reduced element succeeds and
returns the element itself. -/
theorem claim_C5 (a : Fr) (ha : a.val < MODULUS) : from_repr (to_repr a) = (a, true) := by
  have hcan_lt : canonical a < MODULUS := canonical_lt a (MODULUS_lt_cast a ha)
  have hc : natOfBytes (to_repr a) = canonical a := by
    show natOfBytes (bytesOfNat 32 (canonical a)) = canonical a
    rw [natOfBytes_bytesOfNat 32 (canonical a), pow256_32]
    exact Nat.mod_eq_of_lt (lt_trans hcan_lt MODULUS_lt_W4)
  have h256 : natOfBytes (to_repr a) < 2 ^ 256 := by
    rw [hc]; exact lt_trans hcan_lt MODULUS_lt_W4
  have hval : (from_repr (to_repr a)).1.val = a.val := by
    rw [from_repr_val _ h256, hc, canonical_eq a (MODULUS_lt_cast a ha)]
    have hchain : a.val * RINV % MODULUS * R ≡ a.val [MOD MODULUS] := by
      calc a.val * RINV % MODULUS * R
          ≡ a.val * RINV * R [MOD MODULUS] := (Nat.mod_modEq _ _).mul_right _
        _ = a.val * (RINV * 2 ^ 256) - a.val * RINV * (2 ^ 256 - R) := by
            have hRle : R ≤ 2 ^ 256 := by decide
            have e1 : a.val * RINV * (2 ^ 256 - R) + a.val * RINV * R
                = a.val * (RINV * 2 ^ 256) := by
              rw [← Nat.mul_add, Nat.sub_add_cancel hRle]; ring
            omega
        _ ≡ a.val [MOD MODULUS] := by
            have hR256 : (2 : ℕ) ^ 256 ≡ R [MOD MODULUS] := by
              show (2 : ℕ) ^ 256 % MODULUS = R % MODULUS
              decide
            have h1 : a.val * RINV * 2 ^ 256 ≡ a.val * RINV * R [MOD MODULUS] :=
              hR256.mul_left _
            have h2 : a.val * (RINV * 2 ^ 256) ≡ a.val * 1 [MOD MODULUS] := by
              have hRI : RINV * 2 ^ 256 ≡ 1 [MOD MODULUS] := by
                show RINV * 2 ^ 256 % MODULUS = 1 % MODULUS
                decide
              exact hRI.mul_left _
            have e2 : a.val * RINV * (2 ^ 256 - R) + a.val * RINV * R
                = a.val * (RINV * 2 ^ 256) := by
              have hRle : R ≤ 2 ^ 256 := by decide
              rw [← Nat.mul_add, Nat.sub_add_cancel hRle]; ring
            have h3 : a.val * (RINV * 2 ^ 256) - a.val * RINV * (2 ^ 256 - R)
                = a.val * RINV * R := by omega
            rw [h3]
            calc a.val * RINV * R = a.val * (RINV * R) := by ring
              _ ≡ a.val * 1 [MOD MODULUS] := by
                  have hRI2 : RINV * R ≡ 1 [MOD MODULUS] := by
                    show RINV * R % MODULUS = 1 % MODULUS
                    decide
                  exact hRI2.mul_left _
              _ = a.val := by ring
    have hfin : a.val * RINV % MODULUS * R % MODULUS = a.val % MODULUS := hchain
    rw [Nat.mod_eq_of_lt ha] at hfin
    exact hfin
  have hflag : (from_repr (to_repr a)).2 = true := by
    simp only [from_repr, decide_eq_true_iff]
    rw [hc]
    exact hcan_lt
  have h1 : (from_repr (to_repr a)).1 = a := by
    have := hval
    cases h : (from_repr (to_repr a)).1 with
    | mk v => rw [h] at this; cases a; simp_all
  exact Prod.ext h1 hflag

/-- Witness for C5 at the concrete element with limb value 5. -/
theorem claim_C5_witness :
    (Fr.mk 5).val < MODULUS ∧ from_repr (to_repr (Fr.mk 5)) = (Fr.mk 5, true) :=
  ⟨by decide, claim_C5 (Fr.mk 5) (by decide)⟩

/-- C9: `is_odd` is exactly the least-significant bit of the canonical
value, which is the lowest bit of the first byte of `to_repr`. -/
theorem claim_C9 (a : Fr) :
    (Fr.is_odd a = true ↔ canonical a % 2 = 1) ∧
    (to_repr a).getD 0 0 = canonical a % 256 := by
  have hbyte : (to_repr a).getD 0 0 = canonical a % 256 := rfl
  refine ⟨?_, hbyte⟩
  show decide ((to_repr a).getD 0 0 % 2 = 1) = true ↔ canonical a % 2 = 1
  rw [decide_eq_true_iff, hbyte, Nat.mod_mod_of_dvd _ (by omega : (2 : ℕ) ∣ 256)]

end BN256Fr

namespace BN256Fr

theorem R3_lt : R3 < MODULUS := by decide

theorem toField_mul_R2 (c : ℕ) (hc : c < 2 ^ 256) :
    toField (Fr.mul ⟨c⟩ ⟨R2⟩) = (c : ZMod MODULUS) := by
  have hlt := Fr.mul_lt ⟨c⟩ ⟨R2⟩ hc R2_lt
  unfold toField
  rw [canonical_eq _ (MODULUS_lt_cast _ hlt), Fr.mul_val ⟨c⟩ ⟨R2⟩ hc R2_lt]
  have hconst : R2 * RINV * RINV ≡ 1 [MOD MODULUS] := by
    show R2 * RINV * RINV % MODULUS = 1 % MODULUS
    decide
  have hchain : c * R2 * RINV % MODULUS * RINV ≡ c [MOD MODULUS] := by
    calc c * R2 * RINV % MODULUS * RINV
        ≡ c * R2 * RINV * RINV [MOD MODULUS] := (Nat.mod_modEq _ _).mul_right _
      _ = c * (R2 * RINV * RINV) := by ring
      _ ≡ c * 1 [MOD MODULUS] := hconst.mul_left _
      _ = c := by ring
  calc ((c * R2 * RINV % MODULUS * RINV % MODULUS : ℕ) : ZMod MODULUS)
      = ((c * R2 * RINV % MODULUS * RINV : ℕ) : ZMod MODULUS) := ZMod.natCast_mod _ _
    _ = ((c : ℕ) : ZMod MODULUS) := (ZMod.natCast_eq_natCast_iff _ _ _).mpr hchain

theorem toField_mul_R3 (c : ℕ) (hc : c < 2 ^ 256) :
    toField (Fr.mul ⟨c⟩ ⟨R3⟩) = (c : ZMod MODULUS) * ((2 ^ 256 : ℕ) : ZMod MODULUS) := by
  have hlt := Fr.mul_lt ⟨c⟩ ⟨R3⟩ hc R3_lt
  unfold toField
  rw [canonical_eq _ (MODULUS_lt_cast _ hlt), Fr.mul_val ⟨c⟩ ⟨R3⟩ hc R3_lt]
  have hconst : R3 * RINV * RINV ≡ 2 ^ 256 [MOD MODULUS] := by
    show R3 * RINV * RINV % MODULUS = 2 ^ 256 % MODULUS
    decide
  have hchain : c * R3 * RINV % MODULUS * RINV ≡ c * 2 ^ 256 [MOD MODULUS] := by
    calc c * R3 * RINV % MODULUS * RINV
        ≡ c * R3 * RINV * RINV [MOD MODULUS] := (Nat.mod_modEq _ _).mul_right _
      _ = c * (R3 * RINV * RINV) := by ring
      _ ≡ c * 2 ^ 256 [MOD MODULUS] := hconst.mul_left _
  calc ((c * R3 * RINV % MODULUS * RINV % MODULUS : ℕ) : ZMod MODULUS)
      = ((c * R3 * RINV % MODULUS * RINV : ℕ) : ZMod MODULUS) := ZMod.natCast_mod _ _
    _ = ((c * 2 ^ 256 : ℕ) : ZMod MODULUS) := (ZMod.natCast_eq_natCast_iff _ _ _).mpr hchain
    _ = (c : ZMod MODULUS) * ((2 ^ 256 : ℕ) : ZMod MODULUS) := by rw [Nat.cast_mul]

theorem from_u512_lt (n : ℕ) (hn : n < 2 ^ 512) : (from_u512 n).val < MODULUS := by
  have hlo : n % 2 ^ 256 < 2 ^ 256 := Nat.mod_lt _ (by decide)
  have hhi : n / 2 ^ 256 < 2 ^ 256 := by
    have h512 : (2 : ℕ) ^ 512 = 2 ^ 256 * 2 ^ 256 := by norm_num
    exact Nat.div_lt_of_lt_mul (by omega)
  exact Fr.add_lt _ _ (Fr.mul_lt ⟨n % 2 ^ 256⟩ ⟨R2⟩ hlo R2_lt)
    (Fr.mul_lt ⟨n / 2 ^ 256⟩ ⟨R3⟩ hhi R3_lt)

theorem toField_from_u512 (n : ℕ) (hn : n < 2 ^ 512) :
    toField (from_u512 n) = (n : ZMod MODULUS) := by
  have hlo : n % 2 ^ 256 < 2 ^ 256 := Nat.mod_lt _ (by decide)
  have hhi : n / 2 ^ 256 < 2 ^ 256 := by
    have h512 : (2 : ℕ) ^ 512 = 2 ^ 256 * 2 ^ 256 := by norm_num
    exact Nat.div_lt_of_lt_mul (by omega)
  unfold from_u512
  rw [toField_add _ _ (Fr.mul_lt ⟨n % 2 ^ 256⟩ ⟨R2⟩ hlo R2_lt)
    (Fr.mul_lt ⟨n / 2 ^ 256⟩ ⟨R3⟩ hhi R3_lt)]
  rw [toField_mul_R2 _ hlo, toField_mul_R3 _ hhi]
  have hdecomp : n % 2 ^ 256 + n / 2 ^ 256 * 2 ^ 256 = n := by
    have := Nat.div_add_mod n (2 ^ 256)
    omega
  calc ((n % 2 ^ 256 : ℕ) : ZMod MODULUS)
        + ((n / 2 ^ 256 : ℕ) : ZMod MODULUS) * ((2 ^ 256 : ℕ) : ZMod MODULUS)
      = ((n % 2 ^ 256 + n / 2 ^ 256 * 2 ^ 256 : ℕ) : ZMod MODULUS) := by push_cast; ring
    _ = (n : ZMod MODULUS) := by rw [hdecomp]

/-- C7: `from_uniform_bytes` / `from_u512` reduces the 512-bit little-endian
input modulo `r`: the canonical value of the result is the input mod `r`. -/
theorem claim_C7 (n : ℕ) (hn : n < 2 ^ 512) :
    canonical (from_u512 n) = n % MODULUS ∧
    (from_u512 n).val < MODULUS ∧
    (∀ bs : List ℕ, bs.length = 64 → (∀ x ∈ bs, x < 256) →
      canonical (from_uniform_bytes bs) = natOfBytes bs % MODULUS) := by
  have main : ∀ m : ℕ, m < 2 ^ 512 → canonical (from_u512 m) = m % MODULUS := by
    intro m hm
    have hlt := from_u512_lt m hm
    have htf := toField_from_u512 m hm
    have hcan_lt : canonical (from_u512 m) < MODULUS :=
      canonical_lt _ (MODULUS_lt_cast _ hlt)
    have hcast : ((canonical (from_u512 m) : ℕ) : ZMod MODULUS) = ((m : ℕ) : ZMod MODULUS) :=
      htf
    have h2 := (ZMod.natCast_eq_natCast_iff' _ _ _).mp hcast
    rw [Nat.mod_eq_of_lt hcan_lt] at h2
    exact h2
  refine ⟨main n hn, from_u512_lt n hn, fun bs hlen hbytes => ?_⟩
  have hb : natOfBytes bs < 2 ^ 512 := by
    have := natOfBytes_lt bs hbytes
    rw [hlen] at this
    have h64 : (256 : ℕ) ^ 64 = 2 ^ 512 := by norm_num
    omega
  exact main (natOfBytes bs) hb

/-- Witness for C7 at the 512-bit input `2^300 + 5`. -/
theorem claim_C7_witness :
    2 ^ 300 + 5 < 2 ^ 512 ∧ canonical (from_u512 (2 ^ 300 + 5)) = (2 ^ 300 + 5) % MODULUS :=
  ⟨by norm_num, (claim_C7 (2 ^ 300 + 5) (by norm_num)).1⟩

end BN256Fr

namespace BN256Fr

theorem Fr.sub_lt (a b : Fr) (ha : a.val < MODULUS) :
    (Fr.sub a b).val < MODULUS := by
  show (if a.val < b.val then a.val + MODULUS - b.val else a.val - b.val) < MODULUS
  split <;> omega

theorem Fr.neg_lt (a : Fr) : (Fr.neg a).val < MODULUS := by
  show (if a.val = 0 then 0 else MODULUS - a.val) < MODULUS
  have := MODULUS_pos
  split <;> omega

theorem ofField_lt (x : ZMod MODULUS) : (ofField x).val < MODULUS :=
  Nat.mod_lt _ MODULUS_pos

theorem Fr.sqrt_lt (a : Fr) : (Fr.sqrt a).1.val < MODULUS :=
  Nat.mod_lt _ MODULUS_pos

theorem random_eq (g : Rng) : random g =
    (from_u512 (g.stream g.pos + W * (g.stream (g.pos + 1) + W * (g.stream (g.pos + 2) +
      W * (g.stream (g.pos + 3) + W * (g.stream (g.pos + 4) + W * (g.stream (g.pos + 5) +
      W * (g.stream (g.pos + 6) + W * g.stream (g.pos + 7)))))))),
     ⟨g.stream, g.pos + 8⟩) := rfl

theorem nested_word_step (x y B : ℕ) (hx : x < W) (hy : y < B) : x + W * y < W * B := by
  calc x + W * y < W + W * y := by omega
    _ = W * (y + 1) := by ring
    _ ≤ W * B := Nat.mul_le_mul_left _ (by omega)

theorem word_sum_lt (w0 w1 w2 w3 w4 w5 w6 w7 : ℕ)
    (h0 : w0 < W) (h1 : w1 < W) (h2 : w2 < W) (h3 : w3 < W)
    (h4 : w4 < W) (h5 : w5 < W) (h6 : w6 < W) (h7 : w7 < W) :
    w0 + W * (w1 + W * (w2 + W * (w3 + W * (w4 + W * (w5 + W * (w6 + W * w7)))))) < 2 ^ 512 := by
  have s1 : w6 + W * w7 < W * W := nested_word_step _ _ _ h6 h7
  have s2 : w5 + W * (w6 + W * w7) < W * (W * W) := nested_word_step _ _ _ h5 s1
  have s3 : w4 + W * (w5 + W * (w6 + W * w7)) < W * (W * (W * W)) :=
    nested_word_step _ _ _ h4 s2
  have s4 : w3 + W * (w4 + W * (w5 + W * (w6 + W * w7))) < W * (W * (W * (W * W))) :=
    nested_word_step _ _ _ h3 s3
  have s5 : w2 + W * (w3 + W * (w4 + W * (w5 + W * (w6 + W * w7))))
      < W * (W * (W * (W * (W * W)))) := nested_word_step _ _ _ h2 s4
  have s6 : w1 + W * (w2 + W * (w3 + W * (w4 + W * (w5 + W * (w6 + W * w7)))))
      < W * (W * (W * (W * (W * (W * W))))) := nested_word_step _ _ _ h1 s5
  have s7 : w0 + W * (w1 + W * (w2 + W * (w3 + W * (w4 + W * (w5 + W * (w6 + W * w7))))))
      < W * (W * (W * (W * (W * (W * (W * W)))))) := nested_word_step _ _ _ h0 s6
  have hW8 : W * (W * (W * (W * (W * (W * (W * W)))))) = 2 ^ 512 := by decide
  omega

theorem random_lt (g : Rng) (hs : ∀ i : ℕ, g.stream i < 2 ^ 64) :
    (random g).1.val < MODULUS := by
  rw [random_eq g]
  exact from_u512_lt _ (word_sum_lt _ _ _ _ _ _ _ _
    (hs _) (hs _) (hs _) (hs _) (hs _) (hs _) (hs _) (hs _))

theorem val_decomp (v : ℕ) (hv : v < 2 ^ 256) :
    v = v % W + W * (v / W % W) + W ^ 2 * (v / W ^ 2 % W) + W ^ 3 * (v / W ^ 3 % W) := by
  have hW : W = 2 ^ 64 := rfl
  have hW2 : W ^ 2 = 2 ^ 128 := by norm_num [W]
  have hW3 : W ^ 3 = 2 ^ 192 := by norm_num [W]
  rw [hW3, hW2, hW]
  omega

theorem limbs_iff (a b : Fr) (ha : a.val < 2 ^ 256) (hb : b.val < 2 ^ 256) :
    Fr.limbs a = Fr.limbs b ↔ a = b := by
  constructor
  · intro h
    unfold Fr.limbs at h
    simp only [Prod.mk.injEq] at h
    obtain ⟨e0, e1, e2, e3⟩ := h
    have hval : a.val = b.val := by
      rw [val_decomp a.val ha, val_decomp b.val hb, e0, e1, e2, e3]
    cases a; cases b; simp_all
  · intro h; rw [h]

/-- C6: each public operation returns a limb value below the modulus, and —
given the invariant — limb-tuple equality and represented-residue equality
both coincide with equality of field elements (unique encoding per
residue). -/
theorem claim_C6 (a b : Fr) (ha : a.val < MODULUS) (hb : b.val < MODULUS) :
    (Fr.add a b).val < MODULUS ∧
    (Fr.sub a b).val < MODULUS ∧
    (Fr.neg a).val < MODULUS ∧
    (Fr.double a).val < MODULUS ∧
    (Fr.mul a b).val < MODULUS ∧
    (Fr.square a).val < MODULUS ∧
    (Fr.invert a).1.val < MODULUS ∧
    (Fr.sqrt a).1.val < MODULUS ∧
    (∀ bs : List ℕ, bs.length = 32 → (∀ x ∈ bs, x < 256) →
      (from_repr bs).1.val < MODULUS) ∧
    (∀ n : ℕ, n < 2 ^ 512 → (from_u512 n).val < MODULUS) ∧
    (∀ g : Rng, (∀ i : ℕ, g.stream i < 2 ^ 64) → (random g).1.val < MODULUS) ∧
    (Fr.limbs a = Fr.limbs b ↔ a = b) ∧
    (toField a = toField b ↔ a = b) := by
  refine ⟨Fr.add_lt a b ha hb, Fr.sub_lt a b ha, Fr.neg_lt a,
    Fr.add_lt a a ha ha, Fr.mul_lt a b (MODULUS_lt_cast a ha) hb,
    ?_, Fr.pow_lt a _ ha, Fr.sqrt_lt a,
    fun bs hlen hbytes => from_repr_lt bs (natOfBytes32_lt bs hlen hbytes),
    from_u512_lt, random_lt,
    limbs_iff a b (MODULUS_lt_cast a ha) (MODULUS_lt_cast b hb), ?_⟩
  · rw [Fr.square_eq]
    exact Fr.mul_lt a a (MODULUS_lt_cast a ha) ha
  · constructor
    · exact val_eq_of_toField_eq a b ha hb
    · intro h; rw [h]

/-- Witness for C6 at the concrete reduced inputs 0 and 1. -/
theorem claim_C6_witness :
    (Fr.mk 0).val < MODULUS ∧ (Fr.mk 1).val < MODULUS ∧
    (Fr.add (Fr.mk 0) (Fr.mk 1)).val < MODULUS ∧
    (Fr.limbs (Fr.mk 0) = Fr.limbs (Fr.mk 1) ↔ Fr.mk 0 = Fr.mk 1) :=
  ⟨by decide, by decide,
   (claim_C6 (Fr.mk 0) (Fr.mk 1) (by decide) (by decide)).1,
   (claim_C6 (Fr.mk 0) (Fr.mk 1) (by decide) (by decide)).2.2.2.2.2.2.2.2.2.2.2.1⟩

end BN256Fr

namespace BN256Fr

theorem natOfBytes_append (xs ys : List ℕ) :
    natOfBytes (xs ++ ys) = natOfBytes xs + 256 ^ xs.length * natOfBytes ys := by
  induction xs with
  | nil => simp [natOfBytes]
  | cons x rest ih =>
    show x + 256 * natOfBytes (rest ++ ys)
        = (x + 256 * natOfBytes rest) + 256 ^ (rest.length + 1) * natOfBytes ys
    rw [ih, pow_succ]
    ring

theorem pow256_8 : (256 : ℕ) ^ 8 = W := by decide

theorem from_uniform_bytes_words (w0 w1 w2 w3 w4 w5 w6 w7 : ℕ)
    (h0 : w0 < W) (h1 : w1 < W) (h2 : w2 < W) (h3 : w3 < W)
    (h4 : w4 < W) (h5 : w5 < W) (h6 : w6 < W) (h7 : w7 < W) :
    from_uniform_bytes (bytesOfNat 8 w0 ++ (bytesOfNat 8 w1 ++ (bytesOfNat 8 w2 ++
      (bytesOfNat 8 w3 ++ (bytesOfNat 8 w4 ++ (bytesOfNat 8 w5 ++
      (bytesOfNat 8 w6 ++ bytesOfNat 8 w7)))))))
      = from_u512 (w0 + W * (w1 + W * (w2 + W * (w3 + W * (w4 + W * (w5 + W *
          (w6 + W * w7))))))) := by
  have harg : natOfBytes (bytesOfNat 8 w0 ++ (bytesOfNat 8 w1 ++ (bytesOfNat 8 w2 ++
      (bytesOfNat 8 w3 ++ (bytesOfNat 8 w4 ++ (bytesOfNat 8 w5 ++
      (bytesOfNat 8 w6 ++ bytesOfNat 8 w7)))))))
      = w0 + W * (w1 + W * (w2 + W * (w3 + W * (w4 + W * (w5 + W * (w6 + W * w7)))))) := by
    simp only [natOfBytes_append, bytesOfNat_length, natOfBytes_bytesOfNat, pow256_8]
    rw [Nat.mod_eq_of_lt h0, Nat.mod_eq_of_lt h1, Nat.mod_eq_of_lt h2, Nat.mod_eq_of_lt h3,
      Nat.mod_eq_of_lt h4, Nat.mod_eq_of_lt h5, Nat.mod_eq_of_lt h6, Nat.mod_eq_of_lt h7]
  unfold from_uniform_bytes
  rw [harg]

/-- C10: `random` consumes exactly the next eight 64-bit words of the
randomness stream, in order, and returns the same field element as
`from_uniform_bytes` applied to the 64-byte little-endian concatenation of
those words; streams agreeing on those eight words give equal elements. -/
theorem claim_C10 (g : Rng) (hs : ∀ i : ℕ, g.stream i < W) :
    (random g).2.pos = g.pos + 8 ∧
    (random g).2.stream = g.stream ∧
    (random g).1 = from_uniform_bytes
      (bytesOfNat 8 (g.stream g.pos) ++ (bytesOfNat 8 (g.stream (g.pos + 1)) ++
       (bytesOfNat 8 (g.stream (g.pos + 2)) ++ (bytesOfNat 8 (g.stream (g.pos + 3)) ++
       (bytesOfNat 8 (g.stream (g.pos + 4)) ++ (bytesOfNat 8 (g.stream (g.pos + 5)) ++
       (bytesOfNat 8 (g.stream (g.pos + 6)) ++ bytesOfNat 8 (g.stream (g.pos + 7))))))))) ∧
    (∀ g2 : Rng, (∀ i : ℕ, i < 8 → g2.stream (g2.pos + i) = g.stream (g.pos + i)) →
      (random g2).1 = (random g).1) := by
  refine ⟨by rw [random_eq], by rw [random_eq], ?_, ?_⟩
  · rw [from_uniform_bytes_words _ _ _ _ _ _ _ _
      (hs _) (hs _) (hs _) (hs _) (hs _) (hs _) (hs _) (hs _), random_eq]
  · intro g2 h2
    have e0 : g2.stream g2.pos = g.stream g.pos := by simpa using h2 0 (by omega)
    have e1 : g2.stream (g2.pos + 1) = g.stream (g.pos + 1) := h2 1 (by omega)
    have e2 : g2.stream (g2.pos + 2) = g.stream (g.pos + 2) := h2 2 (by omega)
    have e3 : g2.stream (g2.pos + 3) = g.stream (g.pos + 3) := h2 3 (by omega)
    have e4 : g2.stream (g2.pos + 4) = g.stream (g.pos + 4) := h2 4 (by omega)
    have e5 : g2.stream (g2.pos + 5) = g.stream (g.pos + 5) := h2 5 (by omega)
    have e6 : g2.stream (g2.pos + 6) = g.stream (g.pos + 6) := h2 6 (by omega)
    have e7 : g2.stream (g2.pos + 7) = g.stream (g.pos + 7) := h2 7 (by omega)
    rw [random_eq g2, random_eq g]
    dsimp only
    rw [e0, e1, e2, e3, e4, e5, e6, e7]

/-- Witness for C10 at the constant-zero stream starting at position 0. -/
theorem claim_C10_witness :
    (∀ i : ℕ, (Rng.mk (fun _ => 0) 0).stream i < W) ∧
    (random (Rng.mk (fun _ => 0) 0)).2.pos = (Rng.mk (fun _ => 0) 0).pos + 8 := by
  have hz : ∀ i : ℕ, (Rng.mk (fun _ => 0) 0).stream i < W := by
    intro i
    show (0 : ℕ) < W
    decide
  exact ⟨hz, (claim_C10 (Rng.mk (fun _ => 0) 0) hz).1⟩

end BN256Fr

namespace BN256Fr

theorem leastPow_none_spec (b : ZMod MODULUS) : ∀ n : ℕ, leastPow b n = none →
    ∀ j : ℕ, 1 ≤ j → j ≤ n → b ^ 2 ^ j ≠ 1 := by
  intro n
  induction n with
  | zero => intro _ j hj1 hj2; omega
  | succ n ih =>
    intro h j hj1 hj2
    simp only [leastPow] at h
    cases hrec : leastPow b n with
    | some k2 => rw [hrec] at h; exact absurd h (by simp)
    | none =>
      rw [hrec] at h
      by_cases hcond : b ^ 2 ^ (n + 1) = 1
      · rw [if_pos hcond] at h; exact absurd h (by simp)
      · rcases Nat.lt_or_ge j (n + 1) with hlt | hge
        · exact ih hrec j hj1 (by omega)
        · have hj' : j = n + 1 := by omega
          rw [hj']; exact hcond

theorem leastPow_some_spec (b : ZMod MODULUS) : ∀ n k : ℕ, leastPow b n = some k →
    1 ≤ k ∧ k ≤ n ∧ b ^ 2 ^ k = 1 ∧ ∀ j : ℕ, 1 ≤ j → j < k → b ^ 2 ^ j ≠ 1 := by
  intro n
  induction n with
  | zero => intro k h; exact absurd h (by simp [leastPow])
  | succ n ih =>
    intro k h
    simp only [leastPow] at h
    cases hrec : leastPow b n with
    | some k2 =>
      rw [hrec] at h
      have hkk : k2 = k := by simpa using h
      subst hkk
      obtain ⟨h1, h2, h3, h4⟩ := ih k2 hrec
      exact ⟨h1, by omega, h3, h4⟩
    | none =>
      rw [hrec] at h
      by_cases hcond : b ^ 2 ^ (n + 1) = 1
      · rw [if_pos hcond] at h
        have hkk : n + 1 = k := by simpa using h
        subst hkk
        exact ⟨by omega, le_refl _, hcond,
          fun j hj1 hj2 => leastPow_none_spec b n hrec j hj1 (by omega)⟩
      · rw [if_neg hcond] at h
        exact absurd h (by simp)

theorem leastPow_exists (b : ZMod MODULUS) : ∀ n j : ℕ, 1 ≤ j → j ≤ n → b ^ 2 ^ j = 1 →
    ∃ k : ℕ, leastPow b n = some k := by
  intro n
  induction n with
  | zero => intro j h1 h2 _; omega
  | succ n ih =>
    intro j hj1 hj2 hj
    simp only [leastPow]
    cases hrec : leastPow b n with
    | some k2 => exact ⟨k2, rfl⟩
    | none =>
      rcases Nat.lt_or_ge j (n + 1) with hlt | hge
      · obtain ⟨k, hk⟩ := ih j hj1 (by omega) hj
        rw [hrec] at hk
        exact absurd hk (by simp)
      · have hj' : j = n + 1 := by omega
        rw [hj'] at hj
        refine ⟨n + 1, ?_⟩
        show (if b ^ 2 ^ (n + 1) = 1 then some (n + 1) else none) = some (n + 1)
        rw [if_pos hj]

theorem sq_one_cases (y : ZMod MODULUS) (h : y * y = 1) : y = 1 ∨ y = -1 := by
  haveI : Fact (Nat.Prime MODULUS) := ⟨MODULUS_prime⟩
  have hfact : (y - 1) * (y + 1) = 0 := by
    have hexp : (y - 1) * (y + 1) = y * y - 1 := by ring
    rw [hexp, h, sub_self]
  rcases mul_eq_zero.mp hfact with h1 | h1
  · exact Or.inl (sub_eq_zero.mp h1)
  · exact Or.inr (eq_neg_of_add_eq_zero_left h1)

theorem tsLoop_sq : ∀ (fuel : ℕ) (x b z A : ZMod MODULUS) (v : ℕ),
    x * x = A * b → b ^ 2 ^ (v - 1) = 1 → z ^ 2 ^ (v - 1) = -1 →
    1 ≤ v → v ≤ fuel →
    tsLoop fuel x b z v * tsLoop fuel x b z v = A := by
  intro fuel
  induction fuel with
  | zero => intro x b z A v _ _ _ h1 h2; omega
  | succ fuel ih =>
    intro x b z A v hx hb hz h1 h2
    by_cases hb1 : b = 1
    · subst hb1
      have hred : tsLoop (fuel + 1) x 1 z v = x := by simp [tsLoop]
      rw [hred]
      rw [mul_one] at hx
      exact hx
    · have hv2 : 2 ≤ v := by
        by_contra hlt
        have hv1 : v = 1 := by omega
        rw [hv1] at hb
        simp only [Nat.sub_self, pow_zero, pow_one] at hb
        exact hb1 hb
      obtain ⟨k, hk⟩ := leastPow_exists b (v - 1) (v - 1) (by omega) (le_refl _) hb
      obtain ⟨hk1, hkle, hbk, hmin⟩ := leastPow_some_spec b (v - 1) k hk
      have hbkm : b ^ 2 ^ (k - 1) = -1 := by
        have hne : b ^ 2 ^ (k - 1) ≠ 1 := by
          rcases Nat.eq_or_lt_of_le hk1 with heq | hgt
          · rw [← heq]
            simpa using hb1
          · exact hmin (k - 1) (by omega) (by omega)
        have hdouble : 2 ^ (k - 1) + 2 ^ (k - 1) = 2 ^ k := by
          have hk' : k - 1 + 1 = k := by omega
          calc 2 ^ (k - 1) + 2 ^ (k - 1) = 2 ^ (k - 1) * 2 := by ring
            _ = 2 ^ (k - 1 + 1) := (pow_succ 2 (k - 1)).symm
            _ = 2 ^ k := by rw [hk']
        have hsq2 : b ^ 2 ^ (k - 1) * b ^ 2 ^ (k - 1) = 1 := by
          rw [← pow_add, hdouble, hbk]
        rcases sq_one_cases _ hsq2 with h' | h'
        · exact absurd h' hne
        · exact h'
      have hz' : z ^ 2 ^ (v - k - 1) * z ^ 2 ^ (v - k - 1) = z ^ 2 ^ (v - k) := by
        rw [← pow_add]
        congr 1
        have hvk : v - k - 1 + 1 = v - k := by omega
        calc 2 ^ (v - k - 1) + 2 ^ (v - k - 1) = 2 ^ (v - k - 1) * 2 := by ring
          _ = 2 ^ (v - k - 1 + 1) := (pow_succ _ _).symm
          _ = 2 ^ (v - k) := by rw [hvk]
      have hz'pow : (z ^ 2 ^ (v - k - 1) * z ^ 2 ^ (v - k - 1)) ^ 2 ^ (k - 1) = -1 := by
        rw [hz', ← pow_mul]
        have hexp : 2 ^ (v - k) * 2 ^ (k - 1) = 2 ^ (v - 1) := by
          rw [← pow_add]
          congr 1
          omega
        rw [hexp, hz]
      have hb' : (b * (z ^ 2 ^ (v - k - 1) * z ^ 2 ^ (v - k - 1))) ^ 2 ^ (k - 1) = 1 := by
        rw [mul_pow, hbkm, hz'pow]
        ring
      have hx' : x * z ^ 2 ^ (v - k - 1) * (x * z ^ 2 ^ (v - k - 1))
          = A * (b * (z ^ 2 ^ (v - k - 1) * z ^ 2 ^ (v - k - 1))) := by
        calc x * z ^ 2 ^ (v - k - 1) * (x * z ^ 2 ^ (v - k - 1))
            = x * x * (z ^ 2 ^ (v - k - 1) * z ^ 2 ^ (v - k - 1)) := by ring
          _ = A * b * (z ^ 2 ^ (v - k - 1) * z ^ 2 ^ (v - k - 1)) := by rw [hx]
          _ = A * (b * (z ^ 2 ^ (v - k - 1) * z ^ 2 ^ (v - k - 1))) := by ring
      have hrec := ih (x * z ^ 2 ^ (v - k - 1))
        (b * (z ^ 2 ^ (v - k - 1) * z ^ 2 ^ (v - k - 1)))
        (z ^ 2 ^ (v - k - 1) * z ^ 2 ^ (v - k - 1)) A k hx' hb' hz'pow hk1 (by omega)
      have hstep : tsLoop (fuel + 1) x b z v
          = tsLoop fuel (x * z ^ 2 ^ (v - k - 1))
              (b * (z ^ 2 ^ (v - k - 1) * z ^ 2 ^ (v - k - 1)))
              (z ^ 2 ^ (v - k - 1) * z ^ 2 ^ (v - k - 1)) k := by
        simp only [tsLoop, if_neg hb1, hk]
      rw [hstep]
      exact hrec

theorem tsLoop_zero : ∀ (fuel : ℕ) (b z : ZMod MODULUS) (v : ℕ),
    tsLoop fuel 0 b z v = 0 := by
  intro fuel
  induction fuel with
  | zero => intro b z v; rfl
  | succ fuel ih =>
    intro b z v
    simp only [tsLoop]
    split
    · rfl
    · cases hk : leastPow b (v - 1) with
      | none => rfl
      | some k =>
        simp only [zero_mul]
        exact ih _ _ _

end BN256Fr

namespace BN256Fr

theorem pow27_lt : 2 ^ 27 < 2 ^ 336 := by norm_num

theorem z0_powM : powM 336 MODULUS (canonical ROOT_OF_UNITY) (2 ^ 27) = MODULUS - 1 := by
  decide

theorem cast_M_sub_one : ((MODULUS - 1 : ℕ) : ZMod MODULUS) = -1 := by
  have h1 : (1 : ℕ) ≤ MODULUS := by decide
  rw [Nat.cast_sub h1, ZMod.natCast_self]
  simp

theorem z0_pow : toField ROOT_OF_UNITY ^ 2 ^ 27 = -1 := by
  unfold toField
  rw [zmod_pow_natCast MODULUS (canonical ROOT_OF_UNITY) (2 ^ 27) MODULUS_pos pow27_lt,
    z0_powM, cast_M_sub_one]

theorem t_exp : (2 * T_MINUS1_OVER2 + 1) * 2 ^ 27 = MODULUS / 2 := by decide

theorem ts_main (A : ZMod MODULUS) (hnz : A ≠ 0) (hsq : IsSquare A) :
    tsLoop S (A * A ^ T_MINUS1_OVER2) (A * A ^ T_MINUS1_OVER2 * A ^ T_MINUS1_OVER2)
      (toField ROOT_OF_UNITY) S *
    tsLoop S (A * A ^ T_MINUS1_OVER2) (A * A ^ T_MINUS1_OVER2 * A ^ T_MINUS1_OVER2)
      (toField ROOT_OF_UNITY) S = A := by
  haveI : Fact (Nat.Prime MODULUS) := ⟨MODULUS_prime⟩
  have hS1 : S - 1 = 27 := rfl
  apply tsLoop_sq S (A * A ^ T_MINUS1_OVER2)
    (A * A ^ T_MINUS1_OVER2 * A ^ T_MINUS1_OVER2) (toField ROOT_OF_UNITY) A S
  · ring
  · have hbeq : A * A ^ T_MINUS1_OVER2 * A ^ T_MINUS1_OVER2
        = A ^ (2 * T_MINUS1_OVER2 + 1) := by
      rw [two_mul, pow_add, pow_add, pow_one]
      ring
    rw [hbeq, ← pow_mul, hS1, t_exp]
    exact (ZMod.euler_criterion MODULUS hnz).mp hsq
  · rw [hS1]
    exact z0_pow
  · decide
  · exact le_refl S

theorem Fr.sqrt_snd (a : Fr) : (Fr.sqrt a).2 = sqrtFlag a := rfl

theorem sqrtFlag_iff (a : Fr) :
    sqrtFlag a = true ↔ sqrtCandidate a * sqrtCandidate a = toField a := by
  haveI : NeZero MODULUS := ⟨by decide⟩
  simp only [sqrtFlag, beq_iff_eq]
  constructor
  · intro h
    exact ZMod.val_injective MODULUS h
  · intro h
    rw [h]

theorem Fr.sqrt_fst (a : Fr) : (Fr.sqrt a).1 = ofField (sqrtCandidate a) := rfl

theorem sqrtCandidate_eq (a : Fr) : sqrtCandidate a
    = tsLoop S (toField a * toField a ^ T_MINUS1_OVER2)
        (toField a * toField a ^ T_MINUS1_OVER2 * toField a ^ T_MINUS1_OVER2)
        (toField ROOT_OF_UNITY) S := rfl

theorem toField_ofField (x : ZMod MODULUS) : toField (ofField x) = x := by
  haveI : NeZero MODULUS := ⟨by decide⟩
  have hv : (ofField x).val < 2 ^ 256 := MODULUS_lt_cast _ (ofField_lt x)
  unfold toField
  rw [canonical_eq _ hv]
  have hchain : x.val * R % MODULUS * RINV ≡ x.val [MOD MODULUS] := by
    calc x.val * R % MODULUS * RINV
        ≡ x.val * R * RINV [MOD MODULUS] := (Nat.mod_modEq _ _).mul_right _
      _ = x.val * (R * RINV) := by ring
      _ ≡ x.val * 1 [MOD MODULUS] := by
          have hRI : R * RINV ≡ 1 [MOD MODULUS] := by
            show R * RINV % MODULUS = 1 % MODULUS
            decide
          exact hRI.mul_left _
      _ = x.val := by ring
  calc ((x.val * R % MODULUS * RINV % MODULUS : ℕ) : ZMod MODULUS)
      = ((x.val * R % MODULUS * RINV : ℕ) : ZMod MODULUS) := ZMod.natCast_mod _ _
    _ = ((x.val : ℕ) : ZMod MODULUS) := (ZMod.natCast_eq_natCast_iff _ _ _).mpr hchain
    _ = x := ZMod.natCast_rightInverse x

/-- C3: `sqrt` succeeds exactly on the quadratic residues of the field
(zero included), and a successful root squares back to the input under the
field multiplication. -/
theorem claim_C3 (a : Fr) (ha : a.val < MODULUS) :
    ((Fr.sqrt a).2 = true ↔ IsSquare (toField a)) ∧
    ((Fr.sqrt a).2 = true → Fr.mul (Fr.sqrt a).1 (Fr.sqrt a).1 = a) ∧
    (Fr.sqrt Fr.zero).2 = true ∧
    (Fr.sqrt Fr.zero).1 = Fr.zero := by
  have hflag : ∀ b : Fr, b.val < MODULUS →
      ((Fr.sqrt b).2 = true ↔ IsSquare (toField b)) := by
    intro b hb
    rw [Fr.sqrt_snd, sqrtFlag_iff]
    constructor
    · intro h
      exact ⟨_, h.symm⟩
    · intro hsq
      rw [sqrtCandidate_eq]
      by_cases hnz : toField b = 0
      · rw [hnz, zero_mul, zero_mul, tsLoop_zero, zero_mul]
      · exact ts_main (toField b) hnz hsq
  have hroot : ∀ b : Fr, b.val < MODULUS → (Fr.sqrt b).2 = true →
      Fr.mul (Fr.sqrt b).1 (Fr.sqrt b).1 = b := by
    intro b hb h
    rw [Fr.sqrt_snd, sqrtFlag_iff] at h
    rw [Fr.sqrt_fst]
    apply val_eq_of_toField_eq _ _
      (Fr.mul_lt _ _ (MODULUS_lt_cast _ (ofField_lt _)) (ofField_lt _)) hb
    rw [toField_mul _ _ (MODULUS_lt_cast _ (ofField_lt _)) (ofField_lt _),
      toField_ofField]
    exact h
  have hz_lt : Fr.zero.val < MODULUS := by decide
  have hzero_flag : (Fr.sqrt Fr.zero).2 = true := by
    rw [hflag Fr.zero hz_lt, toField_zero]
    exact ⟨0, by ring⟩
  have hzero_root : (Fr.sqrt Fr.zero).1 = Fr.zero := by
    rw [Fr.sqrt_fst]
    have hcand : sqrtCandidate Fr.zero = 0 := by
      rw [sqrtCandidate_eq, toField_zero, zero_mul, zero_mul, tsLoop_zero]
    rw [hcand]
    show Fr.mk ((0 : ZMod MODULUS).val * R % MODULUS) = Fr.zero
    haveI : NeZero MODULUS := ⟨by decide⟩
    rw [ZMod.val_zero, zero_mul, Nat.zero_mod]
    rfl
  exact ⟨hflag a ha, hroot a ha, hzero_flag, hzero_root⟩

/-- Witness for C3 at the input zero, a residue whose root is zero. -/
theorem claim_C3_witness :
    Fr.zero.val < MODULUS ∧ ((Fr.sqrt Fr.zero).2 = true ↔ IsSquare (toField Fr.zero)) :=
  ⟨by decide, (claim_C3 Fr.zero (by decide)).1⟩

end BN256Fr
